import Mathlib

/-! The queue of lab0-c, `queue.c`: a shallow embedding and its verification.

The queue of `queue.c` is an intrusive circular doubly-linked list with a
sentinel (`struct list_head`), each element carrying an owned C string.

The embedding keeps the pointer structure of the C code:

* an address is a `Nat`, a pointer is an `Option Nat` (`none` is `NULL`);
* the heap maps every address to its `next` and `prev` pointers and to the
  text of the element that embeds the node;
* a C function becomes a function into `Run`, which either returns, faults
  on a `NULL` dereference, or runs out of fuel (every C loop and every
  recursive call consumes one unit of fuel per iteration / call).
-/

namespace Queue

/-- A pointer to a `struct list_head`: `none` is `NULL`. -/
abbrev Ptr := Option Nat

/-- The two ways in which a run does not return a value. -/
inductive Fault where
  | nullDeref
  | outOfFuel
  deriving DecidableEq, Repr

/-- Outcome of running a C function. -/
abbrev Run := Except Fault

/-- The memory the queue code works on. `value a` is the text (without its
terminating null byte) of the `element_t` whose embedded `list` node lives at
address `a`; `freed` records the elements handed to `q_release_element`. -/
structure Heap where
  next : Nat → Ptr
  prev : Nat → Ptr
  value : Nat → List Nat
  freed : List Nat

/-- The store `a->next = p`. -/
def Heap.setNext (h : Heap) (a : Nat) (p : Ptr) : Heap :=
  { h with next := fun x => if x = a then p else h.next x }

/-- The store `a->prev = p`. -/
def Heap.setPrev (h : Heap) (a : Nat) (p : Ptr) : Heap :=
  { h with prev := fun x => if x = a then p else h.prev x }

/-- Dereferencing a pointer: `NULL` faults. -/
def deref : Ptr → Run Nat
  | none => .error .nullDeref
  | some a => .ok a

/-- C `strcmp` on texts (byte lists without the terminator); only the sign of
the result is specified by C, so the model returns `-1`, `0` or `1`. -/
def strcmp : List Nat → List Nat → Int
  | [], [] => 0
  | [], _ :: _ => -1
  | _ :: _, [] => 1
  | a :: as, b :: bs => if a < b then -1 else if b < a then 1 else strcmp as bs

/-- C `strlen`. -/
def strlen (s : List Nat) : Nat := s.length

/-! ## List core (`list.h`) -/

/-- Modelled from the spec: `INIT_LIST_HEAD` of `list.h` (not under `src/`)
self-links a node, which is the empty ring of the data model. -/
def INIT_LIST_HEAD (h : Heap) (node : Nat) : Heap :=
  (h.setNext node (some node)).setPrev node (some node)

/-- Modelled from the spec: `list_del` of `list.h` (not under `src/`), the
`unlink(node)` of the list core: removes the node from its ring and re-links
its neighbours; does not deallocate. -/
def list_del (h : Heap) (node : Nat) : Run Heap := do
  let next ← deref (h.next node)
  let prev ← deref (h.prev node)
  let h1 := h.setPrev next (some prev)
  pure (h1.setNext prev (some next))

/-- Modelled from the spec: `list_del_init` of `list.h` (not under `src/`):
`list_del` followed by `INIT_LIST_HEAD` on the removed node. -/
def list_del_init (h : Heap) (node : Nat) : Run Heap := do
  let h1 ← list_del h node
  pure (INIT_LIST_HEAD h1 node)

/-- Modelled from the spec: the forward iterator `list_for_each` of `list.h`
(not under `src/`): from `cur` follow `next` until the sentinel `head` is
reached again, collecting the nodes visited. -/
def list_for_each (h : Heap) (head : Nat) : Nat → Ptr → Run (List Nat)
  | 0, _ => .error .outOfFuel
  | fuel + 1, cur =>
    if cur = some head then pure []
    else do
      let c ← deref cur
      let rest ← list_for_each h head fuel (h.next c)
      pure (c :: rest)

/-- Forward traversal of the queue anchored at `head`: the element nodes in
the order `head->next`, `head->next->next`, ... -/
def forward (fuel : Nat) (h : Heap) (head : Nat) : Run (List Nat) :=
  list_for_each h head fuel (h.next head)

/-- The backward iterator: from `cur` follow `prev` until the sentinel. -/
def list_for_each_prev (h : Heap) (head : Nat) : Nat → Ptr → Run (List Nat)
  | 0, _ => .error .outOfFuel
  | fuel + 1, cur =>
    if cur = some head then pure []
    else do
      let c ← deref cur
      let rest ← list_for_each_prev h head fuel (h.prev c)
      pure (c :: rest)

/-- Backward traversal of the queue anchored at `head`. -/
def backward (fuel : Nat) (h : Heap) (head : Nat) : Run (List Nat) :=
  list_for_each_prev h head fuel (h.prev head)

/-- The function `q_release_element`: frees the text and the element. -/
def q_release_element (h : Heap) (e : Nat) : Heap :=
  { h with freed := e :: h.freed }

/-! ## Removal at the ends (`q_remove_head`, `q_remove_tail`) -/

/-- The width of `size_t`. -/
def SIZE_WIDTH : Nat := 64

/-- Unsigned `size_t` subtraction `a - b`, wrapping modulo `2 ^ 64`. -/
def size_sub (a b : Nat) : Nat := (a + 2 ^ SIZE_WIDTH - b % 2 ^ SIZE_WIDTH) % 2 ^ SIZE_WIDTH

/-- An output buffer `sp`: its bytes by offset, and the offsets stored to so
far, in program order. -/
structure Buf where
  bytes : Nat → Nat
  written : List Nat

/-- The store `sp[i] = b`. -/
def Buf.store (sp : Buf) (i b : Nat) : Buf :=
  { bytes := fun x => if x = i then b else sp.bytes x, written := sp.written ++ [i] }

/-- C `memcpy(sp, src, n)` from a text: copies bytes `0 .. n-1` in order (the
byte at offset `strlen src` of the source is its terminator `0`). -/
def memcpy (sp : Buf) (src : List Nat) (n : Nat) : Buf :=
  (List.range n).foldl (fun b i => b.store i (src.getD i 0)) sp

/-- The copy-out block shared by `q_remove_head` and `q_remove_tail`:
`size = strlen(v) < bufsize - 1 ? strlen(v) : bufsize - 1;`
`memcpy(sp, v, size); sp[size] = 0`. -/
def copy_out (sp : Buf) (v : List Nat) (bufsize : Nat) : Buf :=
  let size := if strlen v < size_sub bufsize 1 then strlen v else size_sub bufsize 1
  (memcpy sp v size).store size 0

/-- The function `q_remove_head(head, sp, bufsize)`: returns the removed element (or
`NULL`), the heap and the output buffer afterwards. -/
def q_remove_head (h : Heap) (head : Ptr) (sp : Option Buf) (bufsize : Nat) :
    Run (Ptr × Heap × Option Buf) :=
  match head with
  | none => pure (none, h, sp)
  | some hd =>
    if h.next hd = some hd then pure (none, h, sp)
    else do
      let ele ← deref (h.next hd)
      let sp1 := sp.map (fun b => copy_out b (h.value ele) bufsize)
      let n ← deref (h.next hd)
      let h1 ← list_del_init h n
      pure (some ele, h1, sp1)

/-- The function `q_remove_tail(head, sp, bufsize)`. -/
def q_remove_tail (h : Heap) (head : Ptr) (sp : Option Buf) (bufsize : Nat) :
    Run (Ptr × Heap × Option Buf) :=
  match head with
  | none => pure (none, h, sp)
  | some hd =>
    if h.next hd = some hd then pure (none, h, sp)
    else do
      let ele ← deref (h.prev hd)
      let sp1 := sp.map (fun b => copy_out b (h.value ele) bufsize)
      let n ← deref (h.prev hd)
      let h1 ← list_del_init h n
      pure (some ele, h1, sp1)

/-! ## Middle deletion (`find_mid`, `q_delete_mid`) -/

/-- The loop of `find_mid`:
`for (...; fast != head && fast->next != head; slow = slow->next, fast = fast->next->next)`. -/
def find_mid_loop (h : Heap) (head : Nat) : Nat → Ptr → Ptr → Run Ptr
  | 0, _, _ => .error .outOfFuel
  | fuel + 1, slow, fast =>
    if fast = some head then pure slow
    else do
      let f ← deref fast
      if h.next f = some head then pure slow
      else do
        let s ← deref slow
        let fn ← deref (h.next f)
        find_mid_loop h head fuel (h.next s) (h.next fn)

/-- The function `find_mid(head)`: `slow = fast = head->next`, then the loop. -/
def find_mid (fuel : Nat) (h : Heap) (head : Ptr) : Run Ptr := do
  let hd ← deref head
  find_mid_loop h hd fuel (h.next hd) (h.next hd)

/-- The function `q_delete_mid(head)`. -/
def q_delete_mid (fuel : Nat) (h : Heap) (head : Ptr) : Run (Heap × Bool) :=
  match head with
  | none => pure (h, false)
  | some hd =>
    if h.next hd = some hd then pure (h, false)
    else do
      let mid ← find_mid fuel h head
      let m ← deref mid
      let h1 ← list_del_init h m
      pure (q_release_element h1 m, true)

/-! ## Sorted-duplicate deletion (`q_delete_dup`) -/

/-- The inner loop of `q_delete_dup`:
`while (cur != head && !strcmp(entry(cur)->value, str)) cur = cur->next;` -/
def skip_equal (h : Heap) (head : Nat) (str : List Nat) : Nat → Ptr → Run Ptr
  | 0, _ => .error .outOfFuel
  | fuel + 1, cur =>
    if cur = some head then pure cur
    else do
      let c ← deref cur
      if strcmp (h.value c) str = 0 then skip_equal h head str fuel (h.next c)
      else pure cur

/-- The outer loop of `q_delete_dup` with its final store `*new_list = cur`.
The pointer-to-pointer `new_list` always addresses the `next` field of a
node; it is represented by the address of that node. -/
def delete_dup_loop (head : Nat) : Nat → Heap → Nat → Ptr → Run Heap
  | 0, _, _, _ => .error .outOfFuel
  | fuel + 1, h, new_list, cur =>
    if cur = some head then pure (h.setNext new_list cur)
    else do
      let c ← deref cur
      if h.next c = some head then pure (h.setNext new_list cur)
      else do
        let cn ← deref (h.next c)
        if strcmp (h.value c) (h.value cn) = 0 then do
          let str := h.value c
          let cur1 ← skip_equal h head str (fuel + 1) (h.next cn)
          delete_dup_loop head fuel h new_list cur1
        else do
          let h1 := h.setNext new_list cur
          let cur1 := h1.next c
          let nl ← deref (h1.next new_list)
          delete_dup_loop head fuel h1 nl cur1

/-- The function `q_delete_dup(head)`. -/
def q_delete_dup (fuel : Nat) (h : Heap) (head : Ptr) : Run (Heap × Bool) :=
  match head with
  | none => pure (h, false)
  | some hd =>
    if h.next hd = some hd then pure (h, false)
    else do
      let h1 ← delete_dup_loop hd fuel h hd (h.next hd)
      pure (h1, true)

/-! ## Pairwise swap (`q_swap`) -/

/-- The two stores after the loop of `q_swap`:
`cur->prev = (*node)->prev; *node = cur;` -/
def swap_finish (h : Heap) (node : Nat) (cur : Ptr) : Run Heap := do
  let c ← deref cur
  let n ← deref (h.next node)
  let h1 := h.setPrev c (h.prev n)
  pure (h1.setNext node cur)

/-- The loop of `q_swap`, followed by `swap_finish`. The pointer-to-pointer
`node` always addresses the `next` field of a node; it is represented by the
address of that node. -/
def swap_loop (head : Nat) : Nat → Heap → Nat → Ptr → Run Heap
  | 0, _, _, _ => .error .outOfFuel
  | fuel + 1, h, node, cur =>
    if cur = some head then swap_finish h node cur
    else do
      let c ← deref cur
      if h.next c = some head then swap_finish h node cur
      else do
        -- temp = cur; cur = cur->next->next;
        let temp := c
        let cn ← deref (h.next c)
        let cur1 := h.next cn
        -- temp->next->prev = (*node)->prev;
        let tn ← deref (h.next temp)
        let n ← deref (h.next node)
        let h1 := h.setPrev tn (h.prev n)
        -- *node = temp->next;
        let h2 := h1.setNext node (h1.next temp)
        -- (*node)->next = temp;
        let n2 ← deref (h2.next node)
        let h3 := h2.setNext n2 (some temp)
        -- temp->prev = *node;
        let h4 := h3.setPrev temp (h3.next node)
        -- node = &((*node)->next->next);
        let n4 ← deref (h4.next node)
        let n4n ← deref (h4.next n4)
        swap_loop head fuel h4 n4n cur1

/-- The function `q_swap(head)`: there is no `NULL` test, `head->next` is read at once. -/
def q_swap (fuel : Nat) (h : Heap) (head : Ptr) : Run Heap := do
  let hd ← deref head
  swap_loop hd fuel h hd (h.next hd)

/-! ## Merge sort (`merge_sort`, `q_sort`) -/

/-- A `struct list_head **` as `merge_sort` receives it: the address of a
local pointer variable of the caller (of which only the content matters, as
`merge_sort` never stores through its argument), or of the `next` field of a
node. -/
inductive HeadRef where
  | localVar (p : Ptr)
  | nextField (a : Nat)

/-- Reading `*head`. -/
def HeadRef.load (r : HeadRef) (h : Heap) : Ptr :=
  match r with
  | .localVar p => p
  | .nextField a => h.next a

/-- What the pointer-to-pointer `new_head` of the merge loop addresses: the
local variable `l1` (its initial value `&l1`) or the `next` field of a node. -/
inductive Loc where
  | varL1
  | nextOf (a : Nat)
  deriving DecidableEq, Repr

/-- The variables of the merge loop of `merge_sort`. -/
structure MergeSt where
  h : Heap
  l1 : Ptr
  l2 : Ptr
  new_head : Loc

/-- Reading `*new_head`. -/
def MergeSt.load (s : MergeSt) : Ptr :=
  match s.new_head with
  | .varL1 => s.l1
  | .nextOf a => s.h.next a

/-- The store `*new_head = p`. -/
def MergeSt.store (s : MergeSt) (p : Ptr) : MergeSt :=
  match s.new_head with
  | .varL1 => { s with l1 := p }
  | .nextOf a => { s with h := s.h.setNext a p }

/-- The `if`/`else` of the merge loop: compare the two candidates, store the
chosen one through `new_head` and advance its cursor. -/
def merge_choose (s : MergeSt) : Run MergeSt := do
  let a ← deref s.l1
  let b ← deref s.l2
  if strcmp (s.h.value a) (s.h.value b) < 0 then do
    -- *new_head = l1; l1 = l1->next;
    let s1 := s.store s.l1
    let a1 ← deref s1.l1
    pure { s1 with l1 := s1.h.next a1 }
  else do
    -- *new_head = l2; l2 = l2->next;
    let s1 := s.store s.l2
    let b1 ← deref s1.l2
    pure { s1 with l2 := s1.h.next b1 }

/-- One iteration of the merge loop of `merge_sort`. -/
def merge_step (s : MergeSt) : Run MergeSt := do
  -- temp = (*new_head)->prev;
  let x ← deref s.load
  let temp := s.h.prev x
  let s1 ← merge_choose s
  -- (*new_head)->prev = temp;
  let y ← deref s1.load
  let s2 := { s1 with h := s1.h.setPrev y temp }
  -- new_head = &(*new_head)->next;
  let z ← deref s2.load
  pure { s2 with new_head := .nextOf z }

/-- The merge loop `while (l1 && l2)` of `merge_sort` with the final store
`*new_head = l1 ? l1 : l2`. -/
def merge_loop : Nat → MergeSt → Run MergeSt
  | 0, _ => .error .outOfFuel
  | fuel + 1, s =>
    if s.l1.isSome && s.l2.isSome then do
      let s1 ← merge_step s
      merge_loop fuel s1
    else pure (s.store (if s.l1.isSome then s.l1 else s.l2))

/-- The split loop of `merge_sort`:
`for (l1 = l2 = *head; l2 && l2->next; l1 = l1->next, l2 = l2->next->next)`. -/
def split_loop (h : Heap) : Nat → Ptr → Ptr → Run Ptr
  | 0, _, _ => .error .outOfFuel
  | fuel + 1, l1, l2 =>
    match l2 with
    | none => pure l1
    | some b =>
      match h.next b with
      | none => pure l1
      | some bn => do
        let a ← deref l1
        split_loop h fuel (h.next a) (h.next bn)

/-- The function `merge_sort(head)`: each call (and each loop iteration) takes fuel. -/
def merge_sort : Nat → Heap → HeadRef → Run Heap
  | 0, _, _ => .error .outOfFuel
  | fuel + 1, h, head =>
    match head.load h with
    | none => pure h
    | some first =>
      if h.next first = none then pure h
      else do
        let l1 ← split_loop h (fuel + 1) (head.load h) (head.load h)
        -- l2 = l1->next; l1->next = NULL; l1 = *head;
        let m ← deref l1
        let l2 := h.next m
        let h1 := h.setNext m none
        let l1 := head.load h1
        let h2 ← merge_sort fuel h1 (.localVar l1)
        let h3 ← merge_sort fuel h2 (.localVar l2)
        let s ← merge_loop (fuel + 1) { h := h3, l1 := l1, l2 := l2, new_head := .varL1 }
        pure s.h

/-- The loop `for (; cur->next; cur = cur->next)` of `q_sort`. -/
def find_last (h : Heap) : Nat → Ptr → Run Nat
  | 0, _ => .error .outOfFuel
  | fuel + 1, cur => do
    let c ← deref cur
    if (h.next c).isSome then find_last h fuel (h.next c) else pure c

/-- The function `q_sort(head)`. -/
def q_sort (fuel : Nat) (h : Heap) (head : Ptr) : Run Heap :=
  match head with
  | none => pure h
  | some hd =>
    if h.next hd = some hd then pure h
    else do
      let first ← deref (h.next hd)
      if h.next first = some hd then pure h
      else do
        -- head->prev->next = NULL;
        let last ← deref (h.prev hd)
        let h1 := h.setNext last none
        let h2 ← merge_sort fuel h1 (.nextField hd)
        let cur ← find_last h2 fuel (h2.next hd)
        -- cur->next = head; head->prev = cur;
        let h3 := h2.setNext cur (some hd)
        pure (h3.setPrev hd (some cur))

/-! ## Well-formed queues -/

/-- The predicate `Chain nx p ns q`: starting at the pointer `p` and following `nx`, the
nodes met are exactly `ns`, and the pointer reached after them is `q`. -/
def Chain (nx : Nat → Ptr) : Ptr → List Nat → Ptr → Prop
  | p, [], q => p = q
  | p, n :: ns, q => p = some n ∧ Chain nx (nx n) ns q

instance Chain.decide (nx : Nat → Ptr) : (p : Ptr) → (ns : List Nat) → (q : Ptr) →
    Decidable (Chain nx p ns q)
  | p, [], q => inferInstanceAs (Decidable (p = q))
  | p, n :: ns, q =>
    have := Chain.decide nx (nx n) ns q
    inferInstanceAs (Decidable (p = some n ∧ Chain nx (nx n) ns q))

/-- The ring invariant at one node: `n.next.prev == n` and `n.prev.next == n`. -/
def Linked (h : Heap) (n : Nat) : Prop :=
  (h.next n).bind h.prev = some n ∧ (h.prev n).bind h.next = some n

instance (h : Heap) (n : Nat) : Decidable (Linked h n) :=
  inferInstanceAs (Decidable (_ ∧ _))

/-- The ring invariant on a set of nodes. -/
def RingInv (h : Heap) (nodes : List Nat) : Prop :=
  ∀ n ∈ nodes, Linked h n

instance (h : Heap) (nodes : List Nat) : Decidable (RingInv h nodes) :=
  inferInstanceAs (Decidable (∀ n ∈ nodes, Linked h n))

/-- A well-formed queue: the sentinel `hd` and the element nodes `ns` are
pairwise distinct, following `next` from the sentinel visits `ns` in order and
comes back to the sentinel, and every node of the ring satisfies the ring
invariant. -/
def WF (h : Heap) (hd : Nat) (ns : List Nat) : Prop :=
  (hd :: ns).Nodup ∧ Chain h.next (h.next hd) ns (some hd) ∧ RingInv h (hd :: ns)

instance (h : Heap) (hd : Nat) (ns : List Nat) : Decidable (WF h hd ns) :=
  inferInstanceAs (Decidable (_ ∧ _ ∧ _))

/-- The texts of a list of nodes. -/
def texts (h : Heap) (ns : List Nat) : List (List Nat) := ns.map h.value

/-- The queue whose sentinel is at address `0` and whose `i`-th element
(counting from 1) is at address `i` and carries the `i`-th text of `ts`. -/
def ringOf (ts : List (List Nat)) : Heap where
  next a := some (if a < ts.length then a + 1 else 0)
  prev a := some (if a = 0 then ts.length else a - 1)
  value a := ts.getD (a - 1) []
  freed := []

/-- The bytes of a string literal. -/
def txt (s : String) : List Nat := s.toList.map Char.toNat

/-- The effect `q_swap` is to have on the forward contents, in the spec's
words: each adjacent pair is exchanged, a trailing unpaired element stays. -/
def swapPairs {α : Type} : List α → List α
  | a :: b :: rest => b :: a :: swapPairs rest
  | l => l

/-- What the scan of `q_delete_dup` keeps of a list of nodes with texts `v`:
a node whose text equals its successor's opens a run, which is dropped with
every following node carrying that text; any other node is kept. -/
def dropRuns (v : Nat → List Nat) : List Nat → List Nat
  | [] => []
  | [a] => [a]
  | a :: b :: rest =>
    if v a = v b then dropRuns v (rest.dropWhile (fun x => decide (v x = v a)))
    else a :: dropRuns v (b :: rest)
termination_by l => l.length
decreasing_by
  · simp only [List.length_cons]
    have := (List.dropWhile_sublist (fun x => decide (v x = v a)) (l := rest)).length_le
    omega
  · simp

/-- Texts in non-decreasing lexicographic (`strcmp`) order. -/
def SortedTexts : List (List Nat) → Prop
  | [] => True
  | [_] => True
  | a :: b :: rest => strcmp a b ≤ 0 ∧ SortedTexts (b :: rest)

instance SortedTexts.decide : (ts : List (List Nat)) → Decidable (SortedTexts ts)
  | [] => inferInstanceAs (Decidable True)
  | [_] => inferInstanceAs (Decidable True)
  | a :: b :: rest =>
    have := SortedTexts.decide (b :: rest)
    inferInstanceAs (Decidable (strcmp a b ≤ 0 ∧ SortedTexts (b :: rest)))

/-- The node `n` carries a text that occurs exactly once among the texts of
the nodes `ns`. -/
def occursOnce (h : Heap) (ns : List Nat) (n : Nat) : Bool :=
  decide ((texts h ns).count (h.value n) = 1)

instance {ε α : Type} [DecidableEq ε] [DecidableEq α] : DecidableEq (Except ε α)
  | .ok a, .ok b => if hab : a = b then isTrue (by rw [hab]) else isFalse (by intro e; cases e; exact hab rfl)
  | .error a, .error b => if hab : a = b then isTrue (by rw [hab]) else isFalse (by intro e; cases e; exact hab rfl)
  | .ok _, .error _ => isFalse (by intro e; cases e)
  | .error _, .ok _ => isFalse (by intro e; cases e)

/-- What a test observes of a run that returns a heap and a flag: the flag,
the forward and the backward traversal from the sentinel `hd`, and the
sentinel's two links. -/
def observe (fuel : Nat) (hd : Nat) (r : Run (Heap × Bool)) :
    Run (Bool × List Nat × List Nat × Ptr × Ptr) := do
  let (h, b) ← r
  let f ← forward fuel h hd
  let bw ← backward fuel h hd
  pure (b, f, bw, h.next hd, h.prev hd)

/-- The texts met by the forward traversal after a run. -/
def contents (fuel : Nat) (hd : Nat) (r : Run (Heap × Bool)) : Run (List (List Nat)) := do
  let (h, _) ← r
  let f ← forward fuel h hd
  pure (texts h f)

/-- What a test observes of the state of the merge loop on the nodes `nodes`:
the two cursors, where `new_head` points, and the `next` links. -/
def MergeSt.view (s : MergeSt) (nodes : List Nat) : Ptr × Ptr × Loc × List Ptr :=
  (s.l1, s.l2, s.new_head, nodes.map s.h.next)

/-- Two detached single-node chains with the same text `[7]`: node `1` (left
half) and node `2` (right half); node `0` precedes them in the output. -/
def tieHeap : Heap where
  next _ := none
  prev _ := none
  value _ := [7]
  freed := []

/-- An output buffer nothing has been stored to. -/
def freshBuf : Buf where
  bytes _ := 255
  written := []

/-- The copy-out contract for a capacity `cap`: from `sp` to `sp1` exactly the
offsets `0 .. k` were stored to, in order, where `k = min (strlen v) (cap - 1)`;
offsets below `k` hold the leading bytes of `v`, offset `k` holds the
terminator, and every offset stored to is below `cap`. -/
def CopiedWithin (sp sp1 : Buf) (v : List Nat) (cap : Nat) : Prop :=
  sp1.written = sp.written ++ List.range (min (strlen v) (cap - 1) + 1) ∧
  (∀ i, i < min (strlen v) (cap - 1) → sp1.bytes i = v.getD i 0) ∧
  sp1.bytes (min (strlen v) (cap - 1)) = 0 ∧
  (∀ i, min (strlen v) (cap - 1) < i → sp1.bytes i = sp.bytes i) ∧
  (∀ i ∈ List.range (min (strlen v) (cap - 1) + 1), i < cap)

/-! ## Construction, insertion, size, reversal, destruction -/

/-- The store of a text into the value buffer of the element at `a`. -/
def Heap.setValue (h : Heap) (a : Nat) (s : List Nat) : Heap :=
  { h with value := fun x => if x = a then s else h.value x }

/-- Modelled from the spec: `list_add` of `list.h` (not under `src/`), the
`insertAfter` of the list core: links `node` right after `head`. -/
def list_add (h : Heap) (node head : Nat) : Run Heap := do
  let next ← deref (h.next head)
  let h1 := h.setPrev next (some node)
  let h2 := h1.setNext node (some next)
  let h3 := h2.setPrev node (some head)
  pure (h3.setNext head (some node))

/-- Modelled from the spec: `list_add_tail` of `list.h` (not under `src/`), the
`insertBefore` of the list core: links `node` right before `head`. -/
def list_add_tail (h : Heap) (node head : Nat) : Run Heap := do
  let prev ← deref (h.prev head)
  let h1 := h.setNext prev (some node)
  let h2 := h1.setNext node (some head)
  let h3 := h2.setPrev node (some prev)
  pure (h3.setPrev head (some node))

/-- The outcome of the two `malloc` calls of an insertion: the address obtained
for the element (`NULL` when that allocation fails) and whether the text
buffer could be allocated. -/
structure Alloc where
  elem : Ptr
  buf : Bool

/-- The function `q_new()`; `m` is what `malloc` returns for the sentinel. -/
def q_new (h : Heap) (m : Ptr) : Heap × Ptr :=
  match m with
  | none => (h, none)
  | some a => (INIT_LIST_HEAD h a, some a)

/-- The function `q_insert_head(head, s)`. When the text buffer cannot be
allocated the element is freed again and nothing has been stored outside it. -/
def q_insert_head (h : Heap) (head : Ptr) (s : List Nat) (m : Alloc) : Run (Heap × Bool) :=
  match head with
  | none => pure (h, false)
  | some hd =>
    match m.elem with
    | none => pure (h, false)
    | some e =>
      if m.buf then do
        -- memcpy(q_element->value, s, len); q_element->value[len] = 0;
        let h1 := h.setValue e (s.take (strlen s))
        let h2 ← list_add h1 e hd
        pure (h2, true)
      else pure (h, false)

/-- The function `q_insert_tail(head, s)`. -/
def q_insert_tail (h : Heap) (head : Ptr) (s : List Nat) (m : Alloc) : Run (Heap × Bool) :=
  match head with
  | none => pure (h, false)
  | some hd =>
    match m.elem with
    | none => pure (h, false)
    | some e =>
      if m.buf then do
        let h1 := h.setValue e (s.take (strlen s))
        let h2 ← list_add_tail h1 e hd
        pure (h2, true)
      else pure (h, false)

/-- The width of `int`. -/
def INT_WIDTH : Nat := 32

/-- The increment `len++` on an `int`, as two's complement wrap-around. -/
def int_incr (x : Int) : Int :=
  (x + 1 + 2 ^ (INT_WIDTH - 1)) % 2 ^ INT_WIDTH - 2 ^ (INT_WIDTH - 1)

/-- The loop `list_for_each (li, head) len++;` of `q_size`. -/
def size_loop (h : Heap) (head : Nat) : Nat → Ptr → Int → Run Int
  | 0, _, _ => .error .outOfFuel
  | fuel + 1, li, len =>
    if li = some head then pure len
    else do
      let c ← deref li
      size_loop h head fuel (h.next c) (int_incr len)

/-- The function `q_size(head)`. -/
def q_size (fuel : Nat) (h : Heap) (head : Ptr) : Run Int :=
  match head with
  | none => pure 0
  | some hd => size_loop h hd fuel (h.next hd) 0

/-- The loop of `q_reverse`: swap `next` and `prev` of every element. -/
def reverse_loop (head : Nat) : Nat → Heap → Ptr → Run Heap
  | 0, _, _ => .error .outOfFuel
  | fuel + 1, h, cur =>
    if cur = some head then pure h
    else do
      let c ← deref cur
      let temp := h.next c
      let h1 := h.setNext c (h.prev c)
      let h2 := h1.setPrev c temp
      reverse_loop head fuel h2 temp

/-- The function `q_reverse(head)`. -/
def q_reverse (fuel : Nat) (h : Heap) (head : Ptr) : Run Heap :=
  match head with
  | none => pure h
  | some hd =>
    if h.next hd = some hd then pure h
    else do
      let h1 ← reverse_loop hd fuel h (h.next hd)
      -- temp = head->next; head->next = head->prev; head->prev = temp;
      let temp := h1.next hd
      let h2 := h1.setNext hd (h1.prev hd)
      pure (h2.setPrev hd temp)

/-- The loop `list_for_each_safe (node, safe, l)` of `q_free`, whose body
unlinks and releases `node`. The macro is the forward iterator of `list.h`
(not under `src/`) that reads `safe = node->next` before the body runs. -/
def free_loop (head : Nat) : Nat → Heap → Ptr → Ptr → Run Heap
  | 0, _, _, _ => .error .outOfFuel
  | fuel + 1, h, node, safe =>
    if node = some head then pure h
    else do
      let n ← deref node
      let h1 ← list_del_init h n
      let h2 := q_release_element h1 n
      -- node = safe, safe = node->next
      let s ← deref safe
      free_loop head fuel h2 safe (h2.next s)

/-- The function `q_free(l)`: after the loop `node` is the sentinel, which is freed. -/
def q_free (fuel : Nat) (h : Heap) (l : Ptr) : Run Heap :=
  match l with
  | none => pure h
  | some hd => do
    let first ← deref (h.next hd)
    let h1 ← free_loop hd fuel h (h.next hd) (h.next first)
    pure { h1 with freed := hd :: h1.freed }

/-- One successful insertion of a test sequence: at the head or at the tail,
with the fresh address `e` that `malloc` returns and the text `s`. -/
inductive Ins where
  | head (e : Nat) (s : List Nat)
  | tail (e : Nat) (s : List Nat)

/-- The address an insertion obtains from `malloc`. -/
def Ins.addr : Ins → Nat
  | .head e _ => e
  | .tail e _ => e

/-- The text an insertion stores. -/
def Ins.text : Ins → List Nat
  | .head _ s => s
  | .tail _ s => s

/-- The forward contents an insertion is to produce from the contents `l`. -/
def Ins.place (l : List Nat) : Ins → List Nat
  | .head e _ => e :: l
  | .tail e _ => l ++ [e]

/-- Running one insertion on the queue at `hd`. -/
def Ins.run (hd : Nat) (h : Heap) : Ins → Run (Heap × Bool)
  | .head e s => q_insert_head h (some hd) s ⟨some e, true⟩
  | .tail e s => q_insert_tail h (some hd) s ⟨some e, true⟩

/-- Running a sequence of insertions on the queue at `hd`; stops at the
first one that reports failure. -/
def insert_seq (hd : Nat) : List Ins → Heap → Run (Heap × Bool)
  | [], h => pure (h, true)
  | op :: ops, h => do
    let r ← op.run hd h
    if r.2 then insert_seq hd ops r.1 else pure r

/-- Calling `q_remove_head(head, NULL, 0)` up to `n` times, collecting the
texts of the elements returned; stops when `NULL` is returned. -/
def remove_heads (hd : Nat) : Nat → Heap → Run (List (List Nat) × Heap)
  | 0, h => pure ([], h)
  | n + 1, h => do
    let r ← q_remove_head h (some hd) none 0
    match r.1 with
    | none => pure ([], r.2.1)
    | some e => do
      let rest ← remove_heads hd n r.2.1
      pure (r.2.1.value e :: rest.1, rest.2)

/-- The heap read in the other direction: `next` and `prev` exchanged. -/
def Heap.mirror (h : Heap) : Heap :=
  { h with next := h.prev, prev := h.next }

/-- The heap in which nothing has been linked yet. -/
def emptyHeap : Heap where
  next _ := none
  prev _ := none
  value _ := []
  freed := []

/-- The ring at `hd` is well formed with the element nodes `ns` and fully
connected: the forward traversal visits `ns` and the backward traversal
visits the same nodes in the opposite order. -/
def Connected (fuel : Nat) (h : Heap) (hd : Nat) (ns : List Nat) : Prop :=
  WF h hd ns ∧ forward fuel h hd = .ok ns ∧ backward fuel h hd = .ok ns.reverse

/-- The `NULL`-terminated chain of the two nodes `1` and `2`. -/
def twoChain : Heap :=
  (ringOf [[1], [2]]).setNext 2 none

/-! ## Basic facts about stores and chains -/

@[simp] theorem setNext_next (h : Heap) (a : Nat) (p : Ptr) (x : Nat) :
    (h.setNext a p).next x = if x = a then p else h.next x := rfl

@[simp] theorem setNext_prev (h : Heap) (a : Nat) (p : Ptr) :
    (h.setNext a p).prev = h.prev := rfl

@[simp] theorem setNext_value (h : Heap) (a : Nat) (p : Ptr) :
    (h.setNext a p).value = h.value := rfl

@[simp] theorem setPrev_next (h : Heap) (a : Nat) (p : Ptr) :
    (h.setPrev a p).next = h.next := rfl

@[simp] theorem setPrev_prev (h : Heap) (a : Nat) (p : Ptr) (x : Nat) :
    (h.setPrev a p).prev x = if x = a then p else h.prev x := rfl

@[simp] theorem setPrev_value (h : Heap) (a : Nat) (p : Ptr) :
    (h.setPrev a p).value = h.value := rfl

@[simp] theorem deref_some (a : Nat) : deref (some a) = .ok a := rfl

@[simp] theorem deref_none : deref none = .error .nullDeref := rfl

@[simp] theorem run_bind_ok {α β : Type} (a : α) (f : α → Run β) :
    ((Except.ok a : Run α) >>= f) = f a := rfl

@[simp] theorem run_bind_error {α β : Type} (e : Fault) (f : α → Run β) :
    ((Except.error e : Run α) >>= f) = Except.error e := rfl

@[simp] theorem run_pure {α : Type} (a : α) : (pure a : Run α) = Except.ok a := rfl

@[simp] theorem chain_nil (nx : Nat → Ptr) (p q : Ptr) : Chain nx p [] q ↔ p = q := Iff.rfl

@[simp] theorem chain_cons (nx : Nat → Ptr) (p q : Ptr) (n : Nat) (ns : List Nat) :
    Chain nx p (n :: ns) q ↔ p = some n ∧ Chain nx (nx n) ns q := Iff.rfl

/-- A chain only depends on the links of its own nodes. -/
theorem chain_congr {nx nx' : Nat → Ptr} {ns : List Nat} (hag : ∀ n ∈ ns, nx' n = nx n) :
    ∀ {p q : Ptr}, Chain nx p ns q → Chain nx' p ns q := by
  induction ns with
  | nil => intro p q hc; exact hc
  | cons n ns ih =>
    intro p q hc
    refine ⟨hc.1, ?_⟩
    rw [hag n (List.mem_cons_self _ _)]
    exact ih (fun m hm => hag m (List.mem_cons_of_mem _ hm)) hc.2

/-- Splitting a chain at a concatenation. -/
theorem chain_append {nx : Nat → Ptr} {l1 l2 : List Nat} :
    ∀ {p q : Ptr}, Chain nx p (l1 ++ l2) q ↔ ∃ r, Chain nx p l1 r ∧ Chain nx r l2 q := by
  induction l1 with
  | nil =>
    intro p q
    constructor
    · intro hc; exact ⟨p, rfl, hc⟩
    · rintro ⟨r, hr, hc⟩
      have hpr : p = r := hr
      subst hpr
      exact hc
  | cons n l1 ih =>
    intro p q
    constructor
    · intro hc
      obtain ⟨r, h1, h2⟩ := ih.mp hc.2
      exact ⟨r, ⟨hc.1, h1⟩, h2⟩
    · rintro ⟨r, ⟨hp, h1⟩, h2⟩
      exact ⟨hp, ih.mpr ⟨r, h1, h2⟩⟩

/-- The iterator returns the nodes of a chain that ends on the sentinel. -/
theorem list_for_each_chain (h : Heap) (hd : Nat) :
    ∀ (ns : List Nat) (p : Ptr) (fuel : Nat), Chain h.next p ns (some hd) → hd ∉ ns →
      ns.length < fuel → list_for_each h hd fuel p = .ok ns := by
  intro ns
  induction ns with
  | nil =>
    intro p fuel hc _ hf
    have hp : p = some hd := hc
    cases fuel with
    | zero => omega
    | succ fuel => simp [list_for_each, hp]
  | cons n ns ih =>
    intro p fuel hc hnot hf
    cases fuel with
    | zero => omega
    | succ fuel =>
      have hp : p = some n := hc.1
      have hne : n ≠ hd := fun e => hnot (e ▸ List.mem_cons_self _ _)
      have hrec := ih (h.next n) fuel hc.2 (fun hm => hnot (List.mem_cons_of_mem _ hm))
        (by simpa using hf)
      simp [list_for_each, hp, hne, hrec]

/-- The forward traversal of a well-formed queue is its list of nodes. -/
theorem forward_of_chain (h : Heap) (hd : Nat) (ns : List Nat) (fuel : Nat)
    (hc : Chain h.next (h.next hd) ns (some hd)) (hnot : hd ∉ ns) (hf : ns.length < fuel) :
    forward fuel h hd = .ok ns :=
  list_for_each_chain h hd ns _ fuel hc hnot hf

/-- A chain that ends on a non-null pointer starts on a non-null pointer. -/
theorem chain_start_some {nx : Nat → Ptr} {ns : List Nat} {p : Ptr} {q : Nat}
    (hc : Chain nx p ns (some q)) : ∃ a, p = some a := by
  cases ns with
  | nil => exact ⟨q, hc⟩
  | cons n ns => exact ⟨n, hc.1⟩

/-- Unlinking the node `m` that follows `pred`: the successor of `pred` becomes
the successor of `m`. -/
theorem chain_unlink {nx : Nat → Ptr} {l0 l2 : List Nat} {pred m : Nat} {p q : Ptr}
    (hnd : (l0 ++ pred :: m :: l2).Nodup) (hc : Chain nx p (l0 ++ pred :: m :: l2) q) :
    Chain (fun x => if x = pred then nx m else nx x) p (l0 ++ pred :: l2) q := by
  obtain ⟨r, h0, h1⟩ := chain_append.mp hc
  obtain ⟨hr, _, h2⟩ := h1
  have hnd' := List.nodup_append.mp hnd
  have hp0 : pred ∉ l0 := fun hm => hnd'.2.2 hm (List.mem_cons_self _ _)
  have hnd2 := List.nodup_cons.mp hnd'.2.1
  have hp2 : pred ∉ l2 := fun hm => hnd2.1 (List.mem_cons_of_mem _ hm)
  refine chain_append.mpr ⟨r, chain_congr ?_ h0, hr, ?_⟩
  · intro n hn
    have : n ≠ pred := fun e => hp0 (e ▸ hn)
    simp [this]
  · simp only [if_true]
    refine chain_congr ?_ h2
    intro n hn
    have : n ≠ pred := fun e => hp2 (e ▸ hn)
    simp [this]

/-- The slow/fast scan of `find_mid`: when `fast` is `lf.length` nodes away from
the sentinel, the scan stops with `slow` advanced by `lf.length / 2` nodes. -/
theorem find_mid_loop_spec (h : Heap) (hd : Nat) :
    ∀ (lf ls : List Nat) (slow fast : Ptr) (fuel : Nat),
      Chain h.next slow ls (some hd) → Chain h.next fast lf (some hd) → hd ∉ lf →
      lf.length ≤ ls.length → lf.length < 2 * fuel →
      ∃ r, find_mid_loop h hd fuel slow fast = .ok r ∧
        Chain h.next r (ls.drop (lf.length / 2)) (some hd)
  | [], ls, slow, fast, fuel, hs, hf, _, _, hfuel => by
    have hfast : fast = some hd := hf
    cases fuel with
    | zero => omega
    | succ fuel => exact ⟨slow, by simp [find_mid_loop, hfast], by simpa using hs⟩
  | [f], ls, slow, fast, fuel, hs, hf, hnot, _, hfuel => by
    have hfast : fast = some f := hf.1
    have hfn : h.next f = some hd := hf.2
    have hne : f ≠ hd := fun e => hnot (e ▸ List.mem_cons_self _ _)
    cases fuel with
    | zero => omega
    | succ fuel => exact ⟨slow, by simp [find_mid_loop, hfast, hfn, hne], by simpa using hs⟩
  | f :: f2 :: lf, ls, slow, fast, fuel, hs, hf, hnot, hlen, hfuel => by
    have hfast : fast = some f := hf.1
    have hfn : h.next f = some f2 := hf.2.1
    have hne : f ≠ hd := fun e => hnot (e ▸ List.mem_cons_self _ _)
    have hne2 : f2 ≠ hd := fun e => hnot (e ▸ List.mem_cons_of_mem _ (List.mem_cons_self _ _))
    cases fuel with
    | zero => omega
    | succ fuel =>
      cases ls with
      | nil => simp at hlen
      | cons s ls =>
        have hslow : slow = some s := hs.1
        have hlen' : lf.length ≤ ls.length := by simp at hlen; omega
        have hfuel' : lf.length < 2 * fuel := by simp at hfuel; omega
        obtain ⟨r, hr, hc⟩ := find_mid_loop_spec h hd lf ls (h.next s) (h.next f2) fuel hs.2
          hf.2.2 (fun hm => hnot (List.mem_cons_of_mem _ (List.mem_cons_of_mem _ hm)))
          hlen' hfuel'
        refine ⟨r, ?_, ?_⟩
        · simp [find_mid_loop, hfast, hfn, hne, hne2, hslow, hr]
        · have hk : (f :: f2 :: lf).length / 2 = lf.length / 2 + 1 := by
            simp only [List.length_cons]; omega
          rw [hk]
          simpa using hc

/-- In a well-formed queue the node before `m` in the ring is `m->prev`, and
`m->next` is not `NULL`. -/
theorem wf_neighbours {h : Heap} {hd : Nat} {l1 l2 : List Nat} {m : Nat}
    (hwf : WF h hd (l1 ++ m :: l2)) :
    ∃ l0 pred nxt, hd :: l1 = l0 ++ [pred] ∧ h.prev m = some pred ∧ h.next m = some nxt ∧
      h.next pred = some m := by
  obtain ⟨_, hfwd, hinv⟩ := hwf
  have hcyc : Chain h.next (some hd) (hd :: (l1 ++ m :: l2)) (some hd) := ⟨rfl, hfwd⟩
  have hne : hd :: l1 ≠ [] := List.cons_ne_nil _ _
  have hsplit : hd :: l1 = (hd :: l1).dropLast ++ [(hd :: l1).getLast hne] :=
    (List.dropLast_append_getLast hne).symm
  set l0 := (hd :: l1).dropLast
  set pred := (hd :: l1).getLast hne
  have hcyc' : Chain h.next (some hd) (l0 ++ pred :: m :: l2) (some hd) := by
    have e : hd :: (l1 ++ m :: l2) = l0 ++ pred :: m :: l2 := by
      rw [← List.cons_append, hsplit]; simp
    rw [← e]; exact hcyc
  obtain ⟨r, _, h1⟩ := chain_append.mp hcyc'
  have hpm : h.next pred = some m := h1.2.1
  obtain ⟨nxt, hnxt⟩ := chain_start_some h1.2.2
  have hpmem : pred ∈ hd :: (l1 ++ m :: l2) := by
    have : pred ∈ hd :: l1 := List.getLast_mem hne
    rw [← List.cons_append]
    exact List.mem_append_left _ this
  have hl := (hinv pred hpmem).1
  rw [hpm] at hl
  exact ⟨l0, pred, nxt, hsplit, hl, hnxt, hpm⟩

/-- Unlinking an element of a well-formed queue removes exactly that node from
the forward chain and changes no text. -/
theorem list_del_init_chain {h : Heap} {hd : Nat} {l1 l2 : List Nat} {m : Nat}
    (hwf : WF h hd (l1 ++ m :: l2)) :
    ∃ h1, list_del_init h m = .ok h1 ∧ Chain h1.next (h1.next hd) (l1 ++ l2) (some hd) ∧
      h1.value = h.value ∧ h1.freed = h.freed := by
  obtain ⟨l0, pred, nxt, hsplit, hprev, hnext, _⟩ := wf_neighbours hwf
  obtain ⟨hnd, hfwd, _⟩ := hwf
  have e : hd :: (l1 ++ m :: l2) = l0 ++ pred :: m :: l2 := by
    rw [← List.cons_append, hsplit]; simp
  have e' : hd :: (l1 ++ l2) = l0 ++ pred :: l2 := by
    rw [← List.cons_append, hsplit]; simp
  have hcyc : Chain h.next (some hd) (l0 ++ pred :: m :: l2) (some hd) := by
    rw [← e]; exact ⟨rfl, hfwd⟩
  have hnd' : (l0 ++ pred :: m :: l2).Nodup := by rw [← e]; exact hnd
  have hun := chain_unlink hnd' hcyc
  rw [← e'] at hun
  have hm : m ∉ hd :: (l1 ++ l2) := by
    intro hmem
    rw [e'] at hmem
    have h3 := List.nodup_append.mp hnd'
    have h4 := List.nodup_cons.mp h3.2.1
    have h5 := List.nodup_cons.mp h4.2
    rcases List.mem_append.mp hmem with h0 | h0
    · exact h3.2.2 h0 (List.mem_cons_of_mem _ (List.mem_cons_self _ _))
    · rcases List.mem_cons.mp h0 with h0 | h0
      · exact h4.1 (h0 ▸ List.mem_cons_self _ _)
      · exact h5.1 h0
  refine ⟨INIT_LIST_HEAD ((h.setPrev nxt (some pred)).setNext pred (some nxt)) m,
    by simp [list_del_init, list_del, hprev, hnext], ?_, rfl, rfl⟩
  have hfin : Chain (INIT_LIST_HEAD ((h.setPrev nxt (some pred)).setNext pred (some nxt)) m).next
      (some hd) (hd :: (l1 ++ l2)) (some hd) := by
    refine chain_congr ?_ hun
    intro n hn
    have hnm : n ≠ m := fun e => hm (e ▸ hn)
    simp [INIT_LIST_HEAD, hnm, hnext]
  exact hfin.2

/-- C8: on a well-formed queue of `n ≥ 1` elements `q_delete_mid` returns true;
`find_mid` stops on the element at 0-based index `n / 2` (never on the
sentinel); that element is unlinked and released, and the forward traversal
afterwards is the original one without index `n / 2`, texts unchanged. -/
theorem q_delete_mid_removes_middle (h : Heap) (hd : Nat) (ns : List Nat) (fuel : Nat)
    (hwf : WF h hd ns) (hne : ns ≠ []) (hfuel : ns.length ≤ fuel) :
    ∃ h1 m, find_mid fuel h (some hd) = .ok (some m) ∧ m ≠ hd ∧
      ns[ns.length / 2]? = some m ∧
      q_delete_mid fuel h (some hd) = .ok (h1, true) ∧
      forward fuel h1 hd = .ok (ns.eraseIdx (ns.length / 2)) ∧
      h1.value = h.value ∧ h1.freed = m :: h.freed := by
  have hpos : 0 < ns.length := List.length_pos.mpr hne
  have hk : ns.length / 2 < ns.length := Nat.div_lt_self hpos (by decide)
  set k := ns.length / 2 with hkdef
  have hdrop : ns.drop k = ns[k] :: ns.drop (k + 1) := List.drop_eq_getElem_cons hk
  have hsplit : ns = ns.take k ++ ns[k] :: ns.drop (k + 1) := by
    rw [← hdrop, List.take_append_drop]
  have hnot : hd ∉ ns := (List.nodup_cons.mp hwf.1).1
  obtain ⟨r, hr, hc⟩ := find_mid_loop_spec h hd ns ns (h.next hd) (h.next hd) fuel
    hwf.2.1 hwf.2.1 hnot (le_refl _) (by omega)
  rw [← hkdef, hdrop] at hc
  have hrm : r = some ns[k] := hc.1
  have hfind : find_mid fuel h (some hd) = .ok (some ns[k]) := by
    simp [find_mid, hr, hrm]
  have hmne : ns[k] ≠ hd := fun e => hnot (e ▸ List.getElem_mem hk)
  have hne1 : h.next hd ≠ some hd := by
    cases ns with
    | nil => exact absurd rfl hne
    | cons a l =>
      have ha : h.next hd = some a := hwf.2.1.1
      have : a ≠ hd := fun e => hnot (e ▸ List.mem_cons_self _ _)
      simp [ha, this]
  have hwf' : WF h hd (ns.take k ++ ns[k] :: ns.drop (k + 1)) := by
    rw [← hsplit]; exact hwf
  obtain ⟨h1, hdel, hch, hval, hfr⟩ := list_del_init_chain hwf'
  have herase : ns.eraseIdx k = ns.take k ++ ns.drop (k + 1) :=
    List.eraseIdx_eq_take_drop_succ ns k
  have hnot' : hd ∉ ns.take k ++ ns.drop (k + 1) := by
    intro hm
    rcases List.mem_append.mp hm with hm | hm
    · exact hnot (List.mem_of_mem_take hm)
    · exact hnot (List.mem_of_mem_drop hm)
  have hlen : (ns.take k ++ ns.drop (k + 1)).length < fuel := by
    simp only [List.length_append, List.length_take, List.length_drop]
    omega
  refine ⟨q_release_element h1 ns[k], ns[k], hfind, hmne, List.getElem?_eq_getElem hk, ?_,
    ?_, hval, ?_⟩
  · simp [q_delete_mid, hne1, hfind, hdel]
  · rw [herase]
    exact forward_of_chain (q_release_element h1 ns[k]) hd _ fuel hch hnot' hlen
  · simp [q_release_element, hfr]

/-- C8 at the queue `[a,b,c]`: the element at index `1` is removed. -/
theorem q_delete_mid_removes_middle_witness :
    WF (ringOf [txt "a", txt "b", txt "c"]) 0 [1, 2, 3] ∧ [1, 2, 3] ≠ [] ∧
    [1, 2, 3].eraseIdx ([1, 2, 3].length / 2) = [1, 3] ∧
    ∃ h1 m, find_mid 3 (ringOf [txt "a", txt "b", txt "c"]) (some 0) = .ok (some m) ∧ m ≠ 0 ∧
      [1, 2, 3][[1, 2, 3].length / 2]? = some m ∧
      q_delete_mid 3 (ringOf [txt "a", txt "b", txt "c"]) (some 0) = .ok (h1, true) ∧
      forward 3 h1 0 = .ok ([1, 2, 3].eraseIdx ([1, 2, 3].length / 2)) ∧
      h1.value = (ringOf [txt "a", txt "b", txt "c"]).value ∧
      h1.freed = m :: (ringOf [txt "a", txt "b", txt "c"]).freed :=
  ⟨by decide, by decide, by decide,
    q_delete_mid_removes_middle (ringOf [txt "a", txt "b", txt "c"]) 0 [1, 2, 3] 3
      (by decide) (by decide) (by decide)⟩

/-- Re-pointing the last node of a chain: the links before it are kept. -/
theorem chain_snoc_set {nx : Nat → Ptr} (nx' : Nat → Ptr) {c0 : List Nat} {node : Nat}
    {p0 q : Ptr} (hc : Chain nx p0 (c0 ++ [node]) q) (hag : ∀ n ∈ c0, nx' n = nx n) :
    Chain nx' p0 (c0 ++ [node]) (nx' node) := by
  obtain ⟨r, h0, h1⟩ := chain_append.mp hc
  exact chain_append.mpr ⟨r, chain_congr hag h0, h1.1, rfl⟩

/-- The loop of `q_swap`: with the nodes `c0 ++ [node]` already in place and
`cur` at the start of the remaining nodes `rest`, the loop returns and leaves
the forward chain `c0 ++ node :: swapPairs rest`. -/
theorem swap_loop_spec (hd : Nat) :
    ∀ (rest c0 : List Nat) (node : Nat) (cur p0 : Ptr) (h : Heap) (fuel : Nat),
      (c0 ++ node :: rest).Nodup → hd ∉ rest →
      Chain h.next p0 (c0 ++ [node]) (h.next node) → (∃ x, h.next node = some x) →
      Chain h.next cur rest (some hd) → rest.length < 2 * fuel →
      ∃ h1, swap_loop hd fuel h node cur = .ok h1 ∧
        Chain h1.next p0 (c0 ++ node :: swapPairs rest) (some hd) ∧ h1.value = h.value
  | [], c0, node, cur, p0, h, fuel, hnd, _, hpre, ⟨x, hx⟩, hcur, hfuel => by
    have hc : cur = some hd := hcur
    have hn0 : node ∉ c0 := fun hm =>
      (List.nodup_append.mp hnd).2.2 hm (List.mem_cons_self _ _)
    cases fuel with
    | zero => omega
    | succ fuel =>
      refine ⟨(h.setPrev hd (h.prev x)).setNext node (some hd), ?_, ?_, rfl⟩
      · simp [swap_loop, swap_finish, hc, hx]
      · have := chain_snoc_set (((h.setPrev hd (h.prev x)).setNext node (some hd)).next)
          hpre (by
            intro n hn
            have : n ≠ node := fun e => hn0 (e ▸ hn)
            simp [this])
        simpa [swapPairs] using this
  | [a], c0, node, cur, p0, h, fuel, hnd, hnot, hpre, ⟨x, hx⟩, hcur, hfuel => by
    have hc : cur = some a := hcur.1
    have han : h.next a = some hd := hcur.2
    have hne : a ≠ hd := fun e => hnot (e ▸ List.mem_cons_self _ _)
    have hnd' := List.nodup_append.mp hnd
    have hn0 : node ∉ c0 := fun hm => hnd'.2.2 hm (List.mem_cons_self _ _)
    have hna : a ≠ node := fun e =>
      (List.nodup_cons.mp hnd'.2.1).1 (e ▸ List.mem_cons_self _ _)
    cases fuel with
    | zero => omega
    | succ fuel =>
      refine ⟨(h.setPrev a (h.prev x)).setNext node (some a), ?_, ?_, rfl⟩
      · simp [swap_loop, swap_finish, hc, hx, han, hne]
      · have h1 := chain_snoc_set (((h.setPrev a (h.prev x)).setNext node (some a)).next)
          hpre (by
            intro n hn
            have : n ≠ node := fun e => hn0 (e ▸ hn)
            simp [this])
        have e : c0 ++ node :: swapPairs [a] = (c0 ++ [node]) ++ [a] := by simp [swapPairs]
        rw [e]
        refine chain_append.mpr ⟨_, h1, ?_⟩
        simp [hna, han]
  | a :: b :: rest, c0, node, cur, p0, h, fuel, hnd, hnot, hpre, ⟨x, hx⟩, hcur, hfuel => by
    have hc : cur = some a := hcur.1
    have han : h.next a = some b := hcur.2.1
    have hrest : Chain h.next (h.next b) rest (some hd) := hcur.2.2
    have hne : a ≠ hd := fun e => hnot (e ▸ List.mem_cons_self _ _)
    have hneb : b ≠ hd := fun e =>
      hnot (e ▸ List.mem_cons_of_mem _ (List.mem_cons_self _ _))
    have hnd' := List.nodup_append.mp hnd
    have hn0 : node ∉ c0 := fun hm => hnd'.2.2 hm (List.mem_cons_self _ _)
    have hnd1 := List.nodup_cons.mp hnd'.2.1
    have hnd2 := List.nodup_cons.mp hnd1.2
    have hnd3 := List.nodup_cons.mp hnd2.2
    have hna : a ≠ node := fun e => hnd1.1 (e ▸ List.mem_cons_self _ _)
    have hnb : b ≠ node := fun e =>
      hnd1.1 (e ▸ List.mem_cons_of_mem _ (List.mem_cons_self _ _))
    have hab : a ≠ b := fun e => hnd2.1 (e ▸ List.mem_cons_self _ _)
    cases fuel with
    | zero => omega
    | succ fuel =>
      set h4 : Heap := (((h.setPrev b (h.prev x)).setNext node (some b)).setNext b
        (some a)).setPrev a (some b) with hh4
      have hstep : swap_loop hd (fuel + 1) h node cur = swap_loop hd fuel h4 a (h.next b) := by
        simp [swap_loop, hc, han, hne, hneb, hx, hnb, hnb.symm, hh4]
      have hnext4 : ∀ y, h4.next y =
          if y = b then some a else if y = node then some b else h.next y := by
        intro y; simp [hh4]
      have hperm : (c0 ++ [node, b] ++ a :: rest).Nodup := by
        have hp : List.Perm (c0 ++ node :: a :: b :: rest) (c0 ++ [node, b] ++ a :: rest) := by
          rw [List.append_assoc]
          refine List.Perm.append_left _ ?_
          exact List.Perm.cons _ (List.Perm.swap _ _ _)
        exact hp.nodup_iff.mp hnd
      have hb0 : b ∉ c0 := fun hm =>
        hnd'.2.2 hm (List.mem_cons_of_mem _ (List.mem_cons_of_mem _ (List.mem_cons_self _ _)))
      have hpre4 : Chain h4.next p0 (c0 ++ [node, b] ++ [a]) (h4.next a) := by
        have h1 := chain_snoc_set (h4.next) hpre (by
          intro n hn
          have h1 : n ≠ node := fun e => hn0 (e ▸ hn)
          have h2 : n ≠ b := fun e => hb0 (e ▸ hn)
          simp [hnext4, h1, h2])
        have e : c0 ++ [node, b] ++ [a] = (c0 ++ [node]) ++ [b, a] := by simp
        rw [e]
        refine chain_append.mpr ⟨_, h1, ?_⟩
        simp [hnext4, hnb.symm]
      have hx4 : ∃ y, h4.next a = some y := ⟨b, by simp [hnext4, hab, hna, han]⟩
      have hrest4 : Chain h4.next (h.next b) rest (some hd) := by
        refine chain_congr ?_ hrest
        intro n hn
        have h1 : n ≠ b := fun e => hnd3.1 (e ▸ hn)
        have h2 : n ≠ node := fun e =>
          hnd1.1 (e ▸ List.mem_cons_of_mem _ (List.mem_cons_of_mem _ hn))
        simp [hnext4, h1, h2]
      obtain ⟨h5, hrun, hch, hval⟩ := swap_loop_spec hd rest (c0 ++ [node, b]) a (h.next b) p0
        h4 fuel hperm (fun hm => hnot (List.mem_cons_of_mem _ (List.mem_cons_of_mem _ hm)))
        hpre4 hx4 hrest4 (by simp at hfuel; omega)
      refine ⟨h5, by rw [hstep, hrun], ?_, by rw [hval]; rfl⟩
      simpa [swapPairs] using hch

/-- C3: on a well-formed queue `q_swap` returns, and the forward traversal
afterwards is the original one with each adjacent pair exchanged (a trailing
unpaired node stays last); the nodes are relinked, no text is changed. -/
theorem q_swap_forward (h : Heap) (hd : Nat) (ns : List Nat) (fuel : Nat)
    (hwf : WF h hd ns) (hfuel : ns.length < fuel) :
    ∃ h1, q_swap fuel h (some hd) = .ok h1 ∧ forward fuel h1 hd = .ok (swapPairs ns) ∧
      h1.value = h.value ∧ texts h1 (swapPairs ns) = swapPairs (texts h ns) := by
  obtain ⟨hnd, hfwd, _⟩ := hwf
  have hnot : hd ∉ ns := (List.nodup_cons.mp hnd).1
  obtain ⟨x, hx⟩ := chain_start_some hfwd
  obtain ⟨h1, hrun, hch, hval⟩ := swap_loop_spec hd ns [] hd (h.next hd) (some hd) h fuel
    (by simpa using hnd) hnot ⟨rfl, rfl⟩ ⟨x, hx⟩ hfwd (by omega)
  have hlen : ∀ l : List Nat, (swapPairs l).length = l.length := by
    intro l
    induction l using swapPairs.induct with
    | case1 a b rest ih => simp [swapPairs, ih]
    | case2 l hl =>
      cases l with
      | nil => rfl
      | cons a l =>
        cases l with
        | nil => rfl
        | cons b l => exact absurd rfl (hl a b l)
  have hmem : ∀ l : List Nat, ∀ y, y ∈ swapPairs l → y ∈ l := by
    intro l
    induction l using swapPairs.induct with
    | case1 a b rest ih =>
      intro y hy
      simp only [swapPairs, List.mem_cons] at hy ⊢
      rcases hy with hy | hy | hy
      · exact Or.inr (Or.inl hy)
      · exact Or.inl hy
      · exact Or.inr (Or.inr (ih y hy))
    | case2 l hl =>
      cases l with
      | nil => intro y hy; exact hy
      | cons a l =>
        cases l with
        | nil => intro y hy; exact hy
        | cons b l => exact absurd rfl (hl a b l)
  have hmap : ∀ l : List Nat, (swapPairs l).map h.value = swapPairs (l.map h.value) := by
    intro l
    induction l using swapPairs.induct with
    | case1 a b rest ih => simp [swapPairs, ih]
    | case2 l hl =>
      cases l with
      | nil => rfl
      | cons a l =>
        cases l with
        | nil => rfl
        | cons b l => exact absurd rfl (hl a b l)
  refine ⟨h1, by simp [q_swap, hrun], ?_, hval, ?_⟩
  · have hch' : Chain h1.next (h1.next hd) (swapPairs ns) (some hd) := by
      have := hch
      simp only [List.nil_append] at this
      exact this.2
    exact forward_of_chain h1 hd _ fuel hch' (fun hm => hnot (hmem ns hd hm))
      (by rw [hlen]; exact hfuel)
  · simp only [texts, hval]
    exact hmap ns

/-- C3 at a queue of five elements: `[1,2,3,4,5]` becomes `[2,1,4,3,5]`. -/
theorem q_swap_forward_witness :
    WF (ringOf [[1], [2], [3], [4], [5]]) 0 [1, 2, 3, 4, 5] ∧
    swapPairs [1, 2, 3, 4, 5] = [2, 1, 4, 3, 5] ∧
    ∃ h1, q_swap 6 (ringOf [[1], [2], [3], [4], [5]]) (some 0) = .ok h1 ∧
      forward 6 h1 0 = .ok (swapPairs [1, 2, 3, 4, 5]) ∧
      h1.value = (ringOf [[1], [2], [3], [4], [5]]).value ∧
      texts h1 (swapPairs [1, 2, 3, 4, 5]) =
        swapPairs (texts (ringOf [[1], [2], [3], [4], [5]]) [1, 2, 3, 4, 5]) :=
  ⟨by decide, by decide,
    q_swap_forward (ringOf [[1], [2], [3], [4], [5]]) 0 [1, 2, 3, 4, 5] 6 (by decide)
      (by decide)⟩

/-! ## `strcmp` -/

theorem strcmp_eq_zero_iff : ∀ (a b : List Nat), strcmp a b = 0 ↔ a = b
  | [], [] => by simp [strcmp]
  | [], _ :: _ => by simp [strcmp]
  | _ :: _, [] => by simp [strcmp]
  | a :: as, b :: bs => by
    have ih := strcmp_eq_zero_iff as bs
    simp only [strcmp, List.cons.injEq]
    split_ifs with h1 h2
    · have : a ≠ b := by omega
      simp [this]
    · have : a ≠ b := by omega
      simp [this]
    · have : a = b := by omega
      simp [this, ih]

theorem strcmp_self (a : List Nat) : strcmp a a = 0 := (strcmp_eq_zero_iff a a).mpr rfl

theorem strcmp_le_trans : ∀ (a b c : List Nat), strcmp a b ≤ 0 → strcmp b c ≤ 0 →
    strcmp a c ≤ 0
  | [], _, [] => by simp [strcmp]
  | [], _, _ :: _ => by simp [strcmp]
  | _ :: _, [], _ => by simp [strcmp]
  | _ :: _, _ :: _, [] => by simp [strcmp]
  | a :: as, b :: bs, c :: cs => by
    have ih := strcmp_le_trans as bs cs
    simp only [strcmp]
    split_ifs <;> intro h1 h2 <;> omega

theorem strcmp_antisymm : ∀ (a b : List Nat), strcmp a b ≤ 0 → strcmp b a ≤ 0 → a = b
  | [], [] => by simp
  | [], _ :: _ => by simp [strcmp]
  | _ :: _, [] => by simp [strcmp]
  | a :: as, b :: bs => by
    have ih := strcmp_antisymm as bs
    simp only [strcmp, List.cons.injEq]
    split_ifs <;> intro h1 h2 <;> first | omega | exact ⟨by omega, ih h1 h2⟩

/-! ## `q_delete_dup` -/

theorem dropRuns_nil (v : Nat → List Nat) : dropRuns v [] = [] := by
  rw [dropRuns]

theorem dropRuns_single (v : Nat → List Nat) (a : Nat) : dropRuns v [a] = [a] := by
  rw [dropRuns]

theorem dropRuns_cons_cons (v : Nat → List Nat) (a b : Nat) (rest : List Nat) :
    dropRuns v (a :: b :: rest) =
      if v a = v b then dropRuns v (rest.dropWhile (fun x => decide (v x = v a)))
      else a :: dropRuns v (b :: rest) := by
  rw [dropRuns]

/-- The inner loop of `q_delete_dup` skips the leading nodes whose text is `str`. -/
theorem skip_equal_spec (h : Heap) (hd : Nat) (str : List Nat) :
    ∀ (rest : List Nat) (cur : Ptr) (fuel : Nat), Chain h.next cur rest (some hd) →
      hd ∉ rest → rest.length < fuel →
      ∃ q, skip_equal h hd str fuel cur = .ok q ∧
        Chain h.next q (rest.dropWhile (fun x => decide (h.value x = str))) (some hd) := by
  intro rest
  induction rest with
  | nil =>
    intro cur fuel hc _ hf
    have hcur : cur = some hd := hc
    cases fuel with
    | zero => omega
    | succ fuel => exact ⟨cur, by simp [skip_equal, hcur], by simpa using hc⟩
  | cons a rest ih =>
    intro cur fuel hc hnot hf
    have hcur : cur = some a := hc.1
    have hne : a ≠ hd := fun e => hnot (e ▸ List.mem_cons_self _ _)
    cases fuel with
    | zero => omega
    | succ fuel =>
      by_cases hv : h.value a = str
      · obtain ⟨q, hq, hcq⟩ := ih (h.next a) fuel hc.2
          (fun hm => hnot (List.mem_cons_of_mem _ hm)) (by simpa using hf)
        refine ⟨q, ?_, ?_⟩
        · simp [skip_equal, hcur, hne, (strcmp_eq_zero_iff _ _).mpr hv, hq]
        · simpa [List.dropWhile, hv] using hcq
      · refine ⟨cur, ?_, ?_⟩
        · have : strcmp (h.value a) str ≠ 0 := fun e => hv ((strcmp_eq_zero_iff _ _).mp e)
          simp [skip_equal, hcur, hne, this]
        · simpa [List.dropWhile, hv] using hc

/-- The outer loop of `q_delete_dup`: with the kept nodes `c0 ++ [new_list]`
in place and `cur` at the start of the remaining nodes `rest`, the loop
returns and leaves the forward chain `c0 ++ new_list :: dropRuns rest`; only
`next` fields are stored to. -/
theorem delete_dup_loop_spec (hd : Nat) :
    ∀ (n : Nat) (rest c0 : List Nat) (new_list : Nat) (cur p0 : Ptr) (h : Heap) (fuel : Nat),
      rest.length ≤ n → (c0 ++ new_list :: rest).Nodup → hd ∉ rest →
      Chain h.next p0 (c0 ++ [new_list]) (h.next new_list) →
      Chain h.next cur rest (some hd) → rest.length < fuel →
      ∃ h1, delete_dup_loop hd fuel h new_list cur = .ok h1 ∧
        Chain h1.next p0 (c0 ++ new_list :: dropRuns h.value rest) (some hd) ∧
        h1.value = h.value ∧ h1.prev = h.prev ∧ h1.freed = h.freed := by
  intro n
  induction n with
  | zero =>
    intro rest c0 new_list cur p0 h fuel hn hnd _ hpre hcur hfuel
    have hr : rest = [] := List.length_eq_zero.mp (Nat.le_zero.mp hn)
    subst hr
    have hc : cur = some hd := hcur
    have hn0 : new_list ∉ c0 := fun hm =>
      (List.nodup_append.mp hnd).2.2 hm (List.mem_cons_self _ _)
    cases fuel with
    | zero => omega
    | succ fuel =>
      refine ⟨h.setNext new_list (some hd), by simp [delete_dup_loop, hc], ?_, rfl, rfl, rfl⟩
      have := chain_snoc_set ((h.setNext new_list (some hd)).next) hpre (by
        intro m hm
        have : m ≠ new_list := fun e => hn0 (e ▸ hm)
        simp [this])
      simpa [dropRuns_nil] using this
  | succ n ih =>
    intro rest c0 new_list cur p0 h fuel hn hnd hnot hpre hcur hfuel
    have hnd' := List.nodup_append.mp hnd
    have hn0 : new_list ∉ c0 := fun hm => hnd'.2.2 hm (List.mem_cons_self _ _)
    have hnd1 := List.nodup_cons.mp hnd'.2.1
    have hag : ∀ (p : Ptr), ∀ m ∈ c0, (h.setNext new_list p).next m = h.next m := by
      intro p m hm
      have : m ≠ new_list := fun e => hn0 (e ▸ hm)
      simp [this]
    cases fuel with
    | zero => omega
    | succ fuel =>
    match rest, hn, hnd, hnot, hcur, hfuel, hnd1 with
    | [], _, _, _, hcur, _, _ =>
      have hc : cur = some hd := hcur
      refine ⟨h.setNext new_list (some hd), by simp [delete_dup_loop, hc], ?_, rfl, rfl, rfl⟩
      have := chain_snoc_set ((h.setNext new_list (some hd)).next) hpre (hag _)
      simpa [dropRuns_nil] using this
    | [a], _, _, hnot, hcur, _, hnd1 =>
      have hc : cur = some a := hcur.1
      have han : h.next a = some hd := hcur.2
      have hne : a ≠ hd := fun e => hnot (e ▸ List.mem_cons_self _ _)
      have hna : a ≠ new_list := fun e => hnd1.1 (e ▸ List.mem_cons_self _ _)
      refine ⟨h.setNext new_list (some a), by simp [delete_dup_loop, hc, han, hne], ?_,
        rfl, rfl, rfl⟩
      have h1 := chain_snoc_set ((h.setNext new_list (some a)).next) hpre (hag _)
      have e : c0 ++ new_list :: dropRuns h.value [a] = (c0 ++ [new_list]) ++ [a] := by
        simp [dropRuns_single]
      rw [e]
      refine chain_append.mpr ⟨_, h1, ?_⟩
      simp [hna, han]
    | a :: b :: rest, hn, hnd, hnot, hcur, hfuel, hnd1 =>
      have hc : cur = some a := hcur.1
      have han : h.next a = some b := hcur.2.1
      have hrest : Chain h.next (h.next b) rest (some hd) := hcur.2.2
      have hne : a ≠ hd := fun e => hnot (e ▸ List.mem_cons_self _ _)
      have hneb : b ≠ hd := fun e =>
        hnot (e ▸ List.mem_cons_of_mem _ (List.mem_cons_self _ _))
      have hnotr : hd ∉ rest := fun hm =>
        hnot (List.mem_cons_of_mem _ (List.mem_cons_of_mem _ hm))
      have hna : a ≠ new_list := fun e => hnd1.1 (e ▸ List.mem_cons_self _ _)
      have hlen : rest.length + 2 ≤ n + 1 := by
        simp only [List.length_cons] at hn; omega
      have hfl : rest.length + 2 < fuel + 1 := by
        simp only [List.length_cons] at hfuel; omega
      by_cases hv : h.value a = h.value b
      · -- a run of equal texts starts at `a`
        obtain ⟨q, hq, hcq⟩ := skip_equal_spec h hd (h.value a) rest (h.next b) (fuel + 1)
          hrest hnotr (by omega)
        set rest' := rest.dropWhile (fun x => decide (h.value x = h.value a)) with hr'
        have hsub : List.Sublist rest' rest := List.dropWhile_sublist _
        have hnd2 : (c0 ++ new_list :: rest').Nodup := by
          refine List.Nodup.sublist ?_ hnd
          refine List.Sublist.append_left ?_ _
          refine List.Sublist.cons₂ _ ?_
          exact (hsub.cons b).cons a
        obtain ⟨h1, hrun, hch, hval, hprev, hfr⟩ := ih rest' c0 new_list q p0 h fuel
          (by have := hsub.length_le; omega) hnd2 (fun hm => hnotr (hsub.subset hm))
          hpre hcq (by have := hsub.length_le; omega)
        refine ⟨h1, ?_, ?_, hval, hprev, hfr⟩
        · have hz : strcmp (h.value a) (h.value b) = 0 := (strcmp_eq_zero_iff _ _).mpr hv
          simp [delete_dup_loop, hc, han, hne, hneb, hz, hq, hrun]
        · rw [dropRuns_cons_cons, if_pos hv]
          exact hch
      · -- `a` is kept
        have hz : strcmp (h.value a) (h.value b) ≠ 0 := fun e =>
          hv ((strcmp_eq_zero_iff _ _).mp e)
        have hnd2 : ((c0 ++ [new_list]) ++ a :: b :: rest).Nodup := by simpa using hnd
        have hpre1 : Chain (h.setNext new_list (some a)).next p0 ((c0 ++ [new_list]) ++ [a])
            ((h.setNext new_list (some a)).next a) := by
          have h1 := chain_snoc_set ((h.setNext new_list (some a)).next) hpre (hag _)
          refine chain_append.mpr ⟨_, h1, ?_⟩
          simp
        have hcur1 : Chain (h.setNext new_list (some a)).next (some b) (b :: rest) (some hd) := by
          refine chain_congr ?_ (show Chain h.next (some b) (b :: rest) (some hd) from
            ⟨rfl, hrest⟩)
          intro m hm
          have : m ≠ new_list := fun e =>
            hnd1.1 (e ▸ List.mem_cons_of_mem _ hm)
          simp [this]
        obtain ⟨h1, hrun, hch, hval, hprev, hfr⟩ := ih (b :: rest) (c0 ++ [new_list]) a (some b)
          p0 (h.setNext new_list (some a)) fuel (by simp; omega) hnd2
          (fun hm => hnot (List.mem_cons_of_mem _ hm)) hpre1 hcur1 (by simp; omega)
        refine ⟨h1, ?_, ?_, hval, hprev, hfr⟩
        · simp [delete_dup_loop, hc, han, hne, hneb, hz, hna, hrun]
        · rw [dropRuns_cons_cons, if_neg hv]
          simpa using hch

/-- Nodes in `strcmp` order, pairwise. -/
theorem sorted_pairwise {v : Nat → List Nat} {l : List Nat}
    (hs : SortedTexts (l.map v)) : l.Pairwise (fun x y => strcmp (v x) (v y) ≤ 0) := by
  haveI : IsTrans (List Nat) (fun a b => strcmp a b ≤ 0) := ⟨strcmp_le_trans⟩
  have hch : ∀ ts : List (List Nat), SortedTexts ts →
      List.Chain' (fun a b => strcmp a b ≤ 0) ts := by
    intro ts
    induction ts with
    | nil => intro _; exact List.chain'_nil
    | cons a ts ih =>
      cases ts with
      | nil => intro _; exact List.chain'_singleton a
      | cons b ts => intro hab; exact List.chain'_cons.mpr ⟨hab.1, ih hab.2⟩
  exact List.pairwise_map.mp (List.chain'_iff_pairwise.mp (hch _ hs))

/-- Dropping the nodes whose text is `t` does not change how often another
text occurs. -/
theorem count_filter_ne (v : Nat → List Nat) (t s : List Nat) (hst : s ≠ t) (l : List Nat) :
    ((l.filter (fun x => !decide (v x = t))).map v).count s = (l.map v).count s := by
  induction l with
  | nil => rfl
  | cons a l ih =>
    by_cases ha : v a = t
    · have hts : t ≠ s := fun e => hst e.symm
      simp [List.filter_cons, ha, List.count_cons, hts, ih]
    · simp [List.filter_cons, ha, List.count_cons, ih]

/-- In sorted order the nodes carrying the text of the first node form a
prefix. -/
theorem dropWhile_eq_filter (v : Nat → List Nat) (a : Nat) :
    ∀ (rest : List Nat), (a :: rest).Pairwise (fun x y => strcmp (v x) (v y) ≤ 0) →
      rest.dropWhile (fun x => decide (v x = v a)) =
        rest.filter (fun x => !decide (v x = v a)) := by
  intro rest
  induction rest with
  | nil => intro _; rfl
  | cons c rest ih =>
    intro hp
    have hp' := List.pairwise_cons.mp hp
    have hpc := List.pairwise_cons.mp hp'.2
    by_cases hc : v c = v a
    · have hrec := ih (List.pairwise_cons.mpr
        ⟨fun y hy => hp'.1 y (List.mem_cons_of_mem _ hy), hpc.2⟩)
      simp [List.dropWhile, List.filter_cons, hc, hrec]
    · have hall : ∀ y ∈ rest, v y ≠ v a := by
        intro y hy e
        have h1 : strcmp (v c) (v y) ≤ 0 := hpc.1 y hy
        have h2 : strcmp (v a) (v c) ≤ 0 := hp'.1 c (List.mem_cons_self _ _)
        rw [e] at h1
        exact hc (strcmp_antisymm _ _ h1 h2)
      have hfil : rest.filter (fun x => !decide (v x = v a)) = rest := by
        rw [List.filter_eq_self]
        intro y hy
        simp [hall y hy]
      simp [List.dropWhile, List.filter_cons, hc, hfil]

/-- On nodes in sorted order, the scan of `q_delete_dup` keeps exactly the nodes
whose text occurs once. -/
theorem dropRuns_sorted (v : Nat → List Nat) :
    ∀ (n : Nat) (l : List Nat), l.length ≤ n →
      l.Pairwise (fun x y => strcmp (v x) (v y) ≤ 0) →
      dropRuns v l = l.filter (fun x => decide ((l.map v).count (v x) = 1)) := by
  intro n
  induction n with
  | zero =>
    intro l hl _
    have : l = [] := List.length_eq_zero.mp (Nat.le_zero.mp hl)
    subst this
    simp [dropRuns_nil]
  | succ n ih =>
    intro l hl hp
    match l, hl, hp with
    | [], _, _ => simp [dropRuns_nil]
    | [a], _, _ => simp [dropRuns_single]
    | a :: b :: rest, hl, hp =>
      have hp' := List.pairwise_cons.mp hp
      have hpb := List.pairwise_cons.mp hp'.2
      have hlen : rest.length + 2 ≤ n + 1 := by
        simp only [List.length_cons] at hl; omega
      by_cases hv : v a = v b
      · rw [dropRuns_cons_cons, if_pos hv,
          dropWhile_eq_filter v a rest (List.pairwise_cons.mpr
            ⟨fun y hy => hp'.1 y (List.mem_cons_of_mem _ hy), hpb.2⟩)]
        set rest' := rest.filter (fun x => !decide (v x = v a)) with hr'
        have hsub : List.Sublist rest' rest := List.filter_sublist _
        rw [ih rest' (by have := hsub.length_le; omega) (hpb.2.sublist hsub)]
        have hcnta : ∀ x, v x = v a → ((a :: b :: rest).map v).count (v x) ≠ 1 := by
          intro x hx
          simp only [List.map_cons, List.count_cons, hx, hv]
          simp
        rw [hr', List.filter_filter]
        simp only [List.filter_cons]
        rw [if_neg (by simpa using hcnta a rfl), if_neg (by simpa using hcnta b hv.symm)]
        refine List.filter_congr ?_
        intro x _
        by_cases hx : v x = v a
        · have := hcnta x hx
          simp [hx, this]
          simpa [hx] using this
        · have h1 : ¬ v a = v x := fun e => hx e.symm
          have h2 : ¬ v b = v x := fun e => hx (hv.trans e).symm
          have h3 := count_filter_ne v (v a) (v x) hx rest
          rw [← hr'] at h3
          simp [hx, h1, h2, List.count_cons, h3]
      · rw [dropRuns_cons_cons, if_neg hv, ih (b :: rest) (by simp; omega) hp'.2]
        have hall : ∀ y ∈ b :: rest, v y ≠ v a := by
          intro y hy e
          have h2 : strcmp (v a) (v b) ≤ 0 := hp'.1 b (List.mem_cons_self _ _)
          rcases List.mem_cons.mp hy with hy | hy
          · exact hv (hy ▸ e).symm
          · have h1 : strcmp (v b) (v y) ≤ 0 := hpb.1 y hy
            rw [e] at h1
            exact hv (strcmp_antisymm _ _ h2 h1)
        have hzero : ((b :: rest).map v).count (v a) = 0 := by
          rw [List.count_eq_zero]
          intro hm
          obtain ⟨y, hy, e⟩ := List.mem_map.mp hm
          exact hall y hy e
        have hca : ((a :: b :: rest).map v).count (v a) = 1 := by
          rw [List.map_cons, List.count_cons, hzero]
          simp
        rw [List.filter_cons (x := a), if_pos (by simpa using hca)]
        congr 1
        refine List.filter_congr ?_
        intro x hx
        have : v a ≠ v x := fun e => hall x hx e.symm
        rw [List.map_cons (l := b :: rest), List.count_cons]
        simp [this]

/-- The run of `q_delete_dup` on any well-formed queue, sorted or not. -/
theorem q_delete_dup_run (h : Heap) (hd : Nat) (ns : List Nat) (fuel : Nat)
    (hwf : WF h hd ns) (hfuel : ns.length < fuel) :
    ∃ h1, q_delete_dup fuel h (some hd) = .ok (h1, !ns.isEmpty) ∧
      Chain h1.next (h1.next hd) (dropRuns h.value ns) (some hd) ∧
      h1.value = h.value ∧ (ns = [] → h1 = h) := by
  obtain ⟨hnd, hfwd, _⟩ := hwf
  have hnot : hd ∉ ns := (List.nodup_cons.mp hnd).1
  cases ns with
  | nil =>
    have hn : h.next hd = some hd := hfwd
    refine ⟨h, by simp [q_delete_dup, hn], ?_, rfl, fun _ => rfl⟩
    simpa [dropRuns_nil] using hn
  | cons a l =>
    have ha : h.next hd = some a := hfwd.1
    have hne : a ≠ hd := fun e => hnot (e ▸ List.mem_cons_self _ _)
    obtain ⟨h1, hrun, hch, hval, _, _⟩ := delete_dup_loop_spec hd (a :: l).length (a :: l) []
      hd (h.next hd) (some hd) h fuel (le_refl _) (by simpa using hnd) hnot ⟨rfl, rfl⟩
      hfwd hfuel
    refine ⟨h1, ?_, hch.2, hval, fun e => absurd e (List.cons_ne_nil _ _)⟩
    rw [ha] at hrun
    simp [q_delete_dup, ha, hne, hrun]

/-- C5: on a well-formed queue whose texts are in non-decreasing order
`q_delete_dup` returns, and the forward traversal afterwards consists of
exactly the nodes whose text occurred once, in their original order; no text
is changed. -/
theorem q_delete_dup_sorted (h : Heap) (hd : Nat) (ns : List Nat) (fuel : Nat)
    (hwf : WF h hd ns) (hs : SortedTexts (texts h ns)) (hfuel : ns.length < fuel) :
    ∃ h1 b, q_delete_dup fuel h (some hd) = .ok (h1, b) ∧
      forward fuel h1 hd = .ok (ns.filter (occursOnce h ns)) ∧ h1.value = h.value := by
  obtain ⟨h1, hrun, hch, hval, _⟩ := q_delete_dup_run h hd ns fuel hwf hfuel
  have hnot : hd ∉ ns := (List.nodup_cons.mp hwf.1).1
  have hdr : dropRuns h.value ns = ns.filter (occursOnce h ns) :=
    dropRuns_sorted h.value ns.length ns (le_refl _) (sorted_pairwise hs)
  rw [hdr] at hch
  refine ⟨h1, _, hrun, ?_, hval⟩
  refine forward_of_chain h1 hd _ fuel hch (fun hm => hnot (List.mem_of_mem_filter hm)) ?_
  exact lt_of_le_of_lt (List.length_filter_le _ _) hfuel

/-- C5 at the queue `[1,1,2,3,3]`, of which only the node of `2` is kept. -/
theorem q_delete_dup_sorted_witness :
    WF (ringOf [[1], [1], [2], [3], [3]]) 0 [1, 2, 3, 4, 5] ∧
    SortedTexts (texts (ringOf [[1], [1], [2], [3], [3]]) [1, 2, 3, 4, 5]) ∧
    [1, 2, 3, 4, 5].filter (occursOnce (ringOf [[1], [1], [2], [3], [3]]) [1, 2, 3, 4, 5]) = [3] ∧
    ∃ h1 b, q_delete_dup 6 (ringOf [[1], [1], [2], [3], [3]]) (some 0) = .ok (h1, b) ∧
      forward 6 h1 0 = .ok ([1, 2, 3, 4, 5].filter
        (occursOnce (ringOf [[1], [1], [2], [3], [3]]) [1, 2, 3, 4, 5])) ∧
      h1.value = (ringOf [[1], [1], [2], [3], [3]]).value :=
  ⟨by decide, by decide, by decide,
    q_delete_dup_sorted (ringOf [[1], [1], [2], [3], [3]]) 0 [1, 2, 3, 4, 5] 6
      (by decide) (by decide) (by decide)⟩

/-- C7, as the claim states it, fails: on a non-null empty queue
`q_delete_dup` returns false. -/
theorem q_delete_dup_empty_returns_false :
    WF (ringOf []) 0 [] ∧
    observe 1 0 (q_delete_dup 1 (ringOf []) (some 0)) = .ok (false, [], [], some 0, some 0) :=
  ⟨by decide, by decide⟩

/-- C7 amended: on a null pointer or a well-formed queue `q_delete_dup`
returns; the result is false exactly when the pointer is null or the queue is
empty, and then the heap is unchanged. -/
theorem q_delete_dup_false_iff (h : Heap) (head : Ptr) (ns : List Nat) (fuel : Nat)
    (hwf : ∀ hd, head = some hd → WF h hd ns) (hfuel : ns.length < fuel) :
    ∃ h1 b, q_delete_dup fuel h head = .ok (h1, b) ∧
      (b = false ↔ (head = none ∨ ns = [])) ∧ (b = false → h1 = h) := by
  cases head with
  | none => exact ⟨h, false, rfl, by simp, fun _ => rfl⟩
  | some hd =>
    obtain ⟨h1, hrun, _, _, hsame⟩ := q_delete_dup_run h hd ns fuel (hwf hd rfl) hfuel
    refine ⟨h1, _, hrun, ?_, ?_⟩
    · cases ns <;> simp
    · cases ns with
      | nil => intro _; exact hsame rfl
      | cons a l => simp

/-- C7 amended, at a queue of two elements with distinct texts: the result is true. -/
theorem q_delete_dup_false_iff_witness :
    (∀ hd, some 0 = some hd → WF (ringOf [[1], [2]]) hd [1, 2]) ∧
    ∃ h1 b, q_delete_dup 3 (ringOf [[1], [2]]) (some 0) = .ok (h1, b) ∧
      (b = false ↔ ((some 0 : Ptr) = none ∨ [1, 2] = [])) ∧ (b = false → h1 = ringOf [[1], [2]]) :=
  ⟨fun hd e => by cases e; decide,
    q_delete_dup_false_iff (ringOf [[1], [2]]) (some 0) [1, 2] 3
      (fun hd e => by cases e; decide) (by decide)⟩

/-- C6: after `q_delete_dup` on the sorted queue `[1,1]` the queue is empty
forwards (`head->next == head`) while `head->prev` still addresses the last
removed node; on `[1,2,2]` the kept node `1` has `next->prev` on a removed node. -/
theorem q_delete_dup_breaks_ring :
    WF (ringOf [[1], [1]]) 0 [1, 2] ∧ SortedTexts (texts (ringOf [[1], [1]]) [1, 2]) ∧
    observe 3 0 (q_delete_dup 3 (ringOf [[1], [1]]) (some 0)) =
      .ok (true, [], [2, 1], some 0, some 2) ∧
    WF (ringOf [[1], [2], [2]]) 0 [1, 2, 3] ∧
    SortedTexts (texts (ringOf [[1], [2], [2]]) [1, 2, 3]) ∧
    observe 4 0 (q_delete_dup 4 (ringOf [[1], [2], [2]]) (some 0)) =
      .ok (true, [1], [3, 2, 1], some 1, some 3) ∧
    (∃ h1, q_delete_dup 3 (ringOf [[1], [1]]) (some 0) = .ok (h1, true) ∧ ¬ Linked h1 0) ∧
    (∃ h1, q_delete_dup 4 (ringOf [[1], [2], [2]]) (some 0) = .ok (h1, true) ∧ ¬ Linked h1 1) :=
  ⟨by decide, by decide, by decide, by decide, by decide, by decide, ⟨_, rfl, by decide⟩,
    ⟨_, rfl, by decide⟩⟩

/-- C4: after `q_swap` on the queue `[a,b]` the forward traversal is `[b,a]`
but `head->prev` is the sentinel itself, so the backward traversal is empty
and `head->prev->next` is not the sentinel. -/
theorem q_swap_breaks_ring :
    WF (ringOf [[1], [2]]) 0 [1, 2] ∧
    observe 3 0 ((q_swap 3 (ringOf [[1], [2]]) (some 0)).map (fun h => (h, true))) =
      .ok (true, [2, 1], [], some 2, some 0) ∧
    ∃ h1, q_swap 3 (ringOf [[1], [2]]) (some 0) = .ok h1 ∧ ¬ RingInv h1 [0, 1, 2] :=
  ⟨by decide, by decide, _, rfl, by decide⟩

/-! ## `merge_sort` and `q_sort` -/

/-- The split loop of `merge_sort` on a `NULL`-terminated chain: when `l2` is
`lf.length` nodes away from the end, the loop stops with `l1` advanced by
`lf.length / 2` nodes (given the fuel for that many iterations). -/
theorem split_loop_spec (h : Heap) :
    ∀ (lf ls : List Nat) (l1 l2 : Ptr) (fuel : Nat),
      Chain h.next l1 ls none → Chain h.next l2 lf none → lf.length ≤ ls.length →
      if lf.length < 2 * fuel then
        ∃ r, split_loop h fuel l1 l2 = .ok r ∧ Chain h.next r (ls.drop (lf.length / 2)) none
      else split_loop h fuel l1 l2 = .error .outOfFuel
  | [], ls, l1, l2, fuel, hs, hf, _ => by
    have hl2 : l2 = none := hf
    cases fuel with
    | zero => simp [split_loop]
    | succ fuel =>
      rw [if_pos (by simp)]
      exact ⟨l1, by simp [split_loop, hl2], by simpa using hs⟩
  | [f], ls, l1, l2, fuel, hs, hf, _ => by
    have hl2 : l2 = some f := hf.1
    have hfn : h.next f = none := hf.2
    cases fuel with
    | zero => simp [split_loop]
    | succ fuel =>
      rw [if_pos (by simp; omega)]
      exact ⟨l1, by simp [split_loop, hl2, hfn], by simpa using hs⟩
  | f :: f2 :: lf, ls, l1, l2, fuel, hs, hf, hlen => by
    have hl2 : l2 = some f := hf.1
    have hfn : h.next f = some f2 := hf.2.1
    cases fuel with
    | zero => simp [split_loop]
    | succ fuel =>
      cases ls with
      | nil => simp at hlen
      | cons s ls =>
        have hl1 : l1 = some s := hs.1
        have hlen' : lf.length ≤ ls.length := by simp at hlen; omega
        have ih := split_loop_spec h lf ls (h.next s) (h.next f2) fuel hs.2 hf.2.2 hlen'
        have hstep : split_loop h (fuel + 1) l1 l2 =
            split_loop h fuel (h.next s) (h.next f2) := by
          simp [split_loop, hl2, hfn, hl1]
        have hk : (f :: f2 :: lf).length / 2 = lf.length / 2 + 1 := by
          simp only [List.length_cons]; omega
        by_cases hfu : lf.length < 2 * fuel
        · rw [if_pos hfu] at ih
          rw [if_pos (by simp only [List.length_cons]; omega), hstep, hk]
          simpa using ih
        · rw [if_neg hfu] at ih
          rw [if_neg (by simp only [List.length_cons]; omega), hstep]
          exact ih

/-- On a `NULL`-terminated chain of two or more nodes `merge_sort` does not
return, whatever the fuel: the split gives the first half `n / 2 + 1` nodes,
which is again two or more, so the first recursive call never bottoms out. -/
theorem merge_sort_diverges :
    ∀ (fuel : Nat) (h : Heap) (ref : HeadRef) (ns : List Nat),
      Chain h.next (ref.load h) ns none → ns.Nodup → 2 ≤ ns.length →
      (∀ a, ref = .nextField a → a ∉ ns) →
      merge_sort fuel h ref = .error .outOfFuel := by
  intro fuel
  induction fuel with
  | zero => intro h ref ns _ _ _ _; rfl
  | succ fuel ih =>
    intro h ref ns hc hnd hlen href
    match ns, hc, hnd, hlen, href with
    | a :: b :: rest, hc, hnd, hlen, href =>
      have hload : ref.load h = some a := hc.1
      have han : h.next a = some b := hc.2.1
      set ns := a :: b :: rest with hns
      set k := ns.length / 2 with hkdef
      have hk : k < ns.length := Nat.div_lt_self (by omega) (by decide)
      have hk1 : 1 ≤ k := by rw [hkdef]; omega
      have hsp := split_loop_spec h ns ns (some a) (some a) (fuel + 1) ⟨rfl, hc.2⟩ ⟨rfl, hc.2⟩
        (le_refl _)
      by_cases hfu : ns.length < 2 * (fuel + 1)
      · rw [if_pos hfu] at hsp
        obtain ⟨r, hr, hcr⟩ := hsp
        have hdrop : ns.drop k = ns[k] :: ns.drop (k + 1) := List.drop_eq_getElem_cons hk
        rw [← hkdef, hdrop] at hcr
        have hrm : r = some ns[k] := hcr.1
        have hsplit : ns = ns.take k ++ ns[k] :: ns.drop (k + 1) := by
          rw [← hdrop, List.take_append_drop]
        have hnd' : (ns.take k ++ ns[k] :: ns.drop (k + 1)).Nodup := by
          rw [← hsplit]; exact hnd
        have hm0 : ns[k] ∉ ns.take k := fun hm =>
          (List.nodup_append.mp hnd').2.2 hm (List.mem_cons_self _ _)
        have hc0 : Chain h.next (some a) (ns.take k ++ ns[k] :: ns.drop (k + 1)) none := by
          rw [← hsplit]; exact ⟨rfl, hc.2⟩
        obtain ⟨r0, hc1, hc2⟩ := chain_append.mp hc0
        have hpre : Chain h.next (some a) (ns.take k ++ [ns[k]]) (h.next ns[k]) :=
          chain_append.mpr ⟨r0, hc1, hc2.1, rfl⟩
        have hpre1 : Chain (h.setNext ns[k] none).next (some a) (ns.take k ++ [ns[k]]) none := by
          have := chain_snoc_set ((h.setNext ns[k] none).next) hpre (by
            intro n hn
            have : n ≠ ns[k] := fun e => hm0 (e ▸ hn)
            simp [this])
          simpa using this
        have hload1 : ref.load (h.setNext ns[k] none) = some a := by
          cases ref with
          | localVar p => exact hload
          | nextField x =>
            have hx : x ≠ ns[k] := fun e => href x rfl (e ▸ List.getElem_mem hk)
            have : h.next x = some a := hload
            simp [HeadRef.load, hx, this]
        have hrec := ih (h.setNext ns[k] none) (.localVar (some a)) (ns.take k ++ [ns[k]])
          hpre1
          (List.Nodup.sublist (List.Sublist.append_left
            (List.Sublist.cons₂ _ (List.nil_sublist _)) _) hnd')
          (by simp only [List.length_append, List.length_take, List.length_singleton]; omega)
          (fun x e => by cases e)
        simp only [merge_sort, hload, han]
        simp [hr, hrm, hload1, hrec]
      · rw [if_neg hfu] at hsp
        simp only [merge_sort, hload, han]
        simp [hsp]

/-- In a well-formed non-empty queue `head->prev` is the last node, whose
`next` is the sentinel. -/
theorem wf_last {h : Heap} {hd : Nat} {l : List Nat} {last : Nat}
    (hwf : WF h hd (l ++ [last])) : h.prev hd = some last ∧ h.next last = some hd := by
  obtain ⟨_, hfwd, hinv⟩ := hwf
  obtain ⟨r, _, h1⟩ := chain_append.mp hfwd
  have hl : h.next last = some hd := h1.2
  have hmem : last ∈ hd :: (l ++ [last]) :=
    List.mem_cons_of_mem _ (List.mem_append_right _ (List.mem_singleton_self _))
  have hlk := (hinv last hmem).1
  rw [hl] at hlk
  exact ⟨hlk, hl⟩

/-- C1: on every well-formed queue of two or more elements `q_sort` does not
return: for every amount of fuel the run is still inside `merge_sort`. -/
theorem q_sort_never_returns (h : Heap) (hd : Nat) (ns : List Nat) (fuel : Nat)
    (hwf : WF h hd ns) (hlen : 2 ≤ ns.length) :
    q_sort fuel h (some hd) = .error .outOfFuel := by
  have hnd := hwf.1
  have hfwd := hwf.2.1
  have hnot : hd ∉ ns := (List.nodup_cons.mp hnd).1
  have hne : ns ≠ [] := by
    intro e; rw [e] at hlen; simp at hlen
  have hsplit : ns = ns.dropLast ++ [ns.getLast hne] :=
    (List.dropLast_append_getLast hne).symm
  set l := ns.dropLast
  set last := ns.getLast hne
  have hwf' : WF h hd (l ++ [last]) := by rw [← hsplit]; exact hwf
  obtain ⟨hprev, hlast⟩ := wf_last hwf'
  have hlmem : last ∈ ns := List.getLast_mem hne
  have hlhd : hd ≠ last := fun e => hnot (e ▸ hlmem)
  have hl0 : last ∉ l := by
    have : (l ++ [last]).Nodup := by rw [← hsplit]; exact (List.nodup_cons.mp hnd).2
    exact fun hm => (List.nodup_append.mp this).2.2 hm (List.mem_singleton_self _)
  have hcut : Chain (h.setNext last none).next ((h.setNext last none).next hd) ns none := by
    have hpre : Chain h.next (h.next hd) (l ++ [last]) (h.next last) := by
      have : Chain h.next (h.next hd) (l ++ [last]) (some hd) := by
        rw [← hsplit]; exact hfwd
      obtain ⟨r, h0, h1⟩ := chain_append.mp this
      exact chain_append.mpr ⟨r, h0, h1.1, rfl⟩
    have := chain_snoc_set ((h.setNext last none).next) hpre (by
      intro n hn
      have : n ≠ last := fun e => hl0 (e ▸ hn)
      simp [this])
    rw [← hsplit] at this
    simpa [hlhd] using this
  have hdiv := merge_sort_diverges fuel (h.setNext last none) (.nextField hd) ns hcut
    (List.nodup_cons.mp hnd).2 hlen (fun a e => by cases e; exact hnot)
  match ns, hfwd, hnot, hdiv with
  | a :: b :: rest, hfwd, hnot, hdiv =>
    have ha : h.next hd = some a := hfwd.1
    have hb : h.next a = some b := hfwd.2.1
    have hahd : a ≠ hd := fun e => hnot (e ▸ List.mem_cons_self _ _)
    have hbhd : b ≠ hd := fun e =>
      hnot (e ▸ List.mem_cons_of_mem _ (List.mem_cons_self _ _))
    simp [q_sort, ha, hb, hahd, hbhd, hprev, hdiv]

/-- C1 at the queue `["banana","apple","cherry"]`, with fuel for a million
calls. -/
theorem q_sort_never_returns_witness :
    WF (ringOf [txt "banana", txt "apple", txt "cherry"]) 0 [1, 2, 3] ∧
    q_sort 1000000 (ringOf [txt "banana", txt "apple", txt "cherry"]) (some 0) =
      .error .outOfFuel :=
  ⟨by decide,
    q_sort_never_returns (ringOf [txt "banana", txt "apple", txt "cherry"]) 0 [1, 2, 3] 1000000
      (by decide) (by decide)⟩

/-- C2, as the claim states it, fails: with equal texts on both candidates the
merge step stores the right-half candidate (node `2`) through `new_head` and
advances the right cursor; in the first iteration (`new_head == &l1`) the
left-half candidate (node `1`) is even dropped from the left cursor. -/
theorem merge_step_tie_takes_right :
    strcmp (tieHeap.value 1) (tieHeap.value 2) = 0 ∧
    (merge_choose { h := tieHeap, l1 := some 1, l2 := some 2, new_head := .nextOf 0 }).map
      (fun s => s.view [0, 1, 2]) = .ok (some 1, none, .nextOf 0, [some 2, none, none]) ∧
    (merge_choose { h := tieHeap, l1 := some 1, l2 := some 2, new_head := .varL1 }).map
      (fun s => s.view [0, 1, 2]) = .ok (some 2, none, .varL1, [none, none, none]) :=
  ⟨by decide, by decide, by decide⟩

/-- C2 amended: the comparison of the merge step takes the left-half candidate
`a` exactly when `strcmp` of the two texts is negative: then `a` is stored
through `new_head` and the right cursor stays on `b`; otherwise (equal texts
included) the right-half candidate `b` is stored and the right cursor moves
to its successor. -/
theorem merge_choose_strict (s : MergeSt) (a b : Nat) (hl1 : s.l1 = some a)
    (hl2 : s.l2 = some b) :
    ∃ s1, merge_choose s = .ok s1 ∧ s1.new_head = s.new_head ∧
      (strcmp (s.h.value a) (s.h.value b) < 0 →
        s1.l2 = some b ∧ (∀ c, s.new_head = .nextOf c → s1.h.next c = some a)) ∧
      (¬ strcmp (s.h.value a) (s.h.value b) < 0 →
        s1.l2 = s1.h.next b ∧ (∀ c, s.new_head = .nextOf c → s1.h.next c = some b) ∧
        (s.new_head = .varL1 → s1.l1 = some b)) := by
  obtain ⟨h, l1, l2, nh⟩ := s
  simp only at hl1 hl2
  subst hl1 hl2
  by_cases hlt : strcmp (h.value a) (h.value b) < 0
  · cases nh with
    | varL1 =>
      refine ⟨MergeSt.mk h (h.next a) (some b) .varL1, ?_, rfl, ?_, ?_⟩
      · simp [merge_choose, hlt, MergeSt.store]
      · intro _; exact ⟨rfl, fun c e => by cases e⟩
      · intro hn; exact absurd hlt hn
    | nextOf c =>
      refine ⟨MergeSt.mk (h.setNext c (some a)) ((h.setNext c (some a)).next a) (some b)
        (.nextOf c), ?_, rfl, ?_, ?_⟩
      · simp [merge_choose, hlt, MergeSt.store]
      · intro _
        refine ⟨rfl, fun c' e => ?_⟩
        cases e
        simp
      · intro hn; exact absurd hlt hn
  · cases nh with
    | varL1 =>
      refine ⟨MergeSt.mk h (some b) (h.next b) .varL1, ?_, rfl, ?_, ?_⟩
      · simp [merge_choose, hlt, MergeSt.store]
      · intro hn; exact absurd hn hlt
      · intro _; exact ⟨rfl, (fun c e => by cases e), fun _ => rfl⟩
    | nextOf c =>
      refine ⟨MergeSt.mk (h.setNext c (some b)) (some a) ((h.setNext c (some b)).next b)
        (.nextOf c), ?_, rfl, ?_, ?_⟩
      · simp [merge_choose, hlt, MergeSt.store]
      · intro hn; exact absurd hn hlt
      · intro _
        refine ⟨rfl, fun c' e => ?_, fun e => by cases e⟩
        cases e
        simp

/-- C2 amended, at two candidates with equal texts. -/
theorem merge_choose_strict_witness :
    ∃ s1, merge_choose { h := tieHeap, l1 := some 1, l2 := some 2, new_head := .nextOf 0 } =
        .ok s1 ∧ s1.new_head = .nextOf 0 ∧
      (strcmp (tieHeap.value 1) (tieHeap.value 2) < 0 →
        s1.l2 = some 2 ∧ (∀ c, Loc.nextOf 0 = .nextOf c → s1.h.next c = some 1)) ∧
      (¬ strcmp (tieHeap.value 1) (tieHeap.value 2) < 0 →
        s1.l2 = s1.h.next 2 ∧ (∀ c, Loc.nextOf 0 = .nextOf c → s1.h.next c = some 2) ∧
        (Loc.nextOf 0 = .varL1 → s1.l1 = some 2)) :=
  merge_choose_strict { h := tieHeap, l1 := some 1, l2 := some 2, new_head := .nextOf 0 } 1 2
    rfl rfl

/-- C9, as the claim states it, fails: on `[a,b,c,d,e,f]` the contents after
`q_delete_mid` are not `[a,b,d,e,f]`. -/
theorem q_delete_mid_six_not_index_two :
    WF (ringOf [txt "a", txt "b", txt "c", txt "d", txt "e", txt "f"]) 0 [1, 2, 3, 4, 5, 6] ∧
    contents 7 0 (q_delete_mid 7
      (ringOf [txt "a", txt "b", txt "c", txt "d", txt "e", txt "f"]) (some 0)) ≠
      .ok [txt "a", txt "b", txt "d", txt "e", txt "f"] :=
  ⟨by decide, by decide⟩

/-- C9 amended: on `[a,b,c,d,e,f]` `q_delete_mid` returns true and removes the
element at index `6 / 2 = 3` (`d`), leaving `[a,b,c,e,f]`. -/
theorem q_delete_mid_six_index_three :
    contents 7 0 (q_delete_mid 7
      (ringOf [txt "a", txt "b", txt "c", txt "d", txt "e", txt "f"]) (some 0)) =
      .ok [txt "a", txt "b", txt "c", txt "e", txt "f"] ∧
    (q_delete_mid 7 (ringOf [txt "a", txt "b", txt "c", txt "d", txt "e", txt "f"])
      (some 0)).map (fun r => (r.2, r.1.freed)) = .ok (true, [4]) ∧
    find_mid 7 (ringOf [txt "a", txt "b", txt "c", txt "d", txt "e", txt "f"]) (some 0) =
      .ok (some 4) :=
  ⟨by decide, by decide, by decide⟩

/-! ## Copy-out of `q_remove_head` / `q_remove_tail` -/

theorem memcpy_succ (sp : Buf) (v : List Nat) (n : Nat) :
    memcpy sp v (n + 1) = (memcpy sp v n).store n (v.getD n 0) := by
  simp [memcpy, List.range_succ, List.foldl_append]

/-- The copy `memcpy` stores to the offsets `0 .. n-1` in order. -/
theorem memcpy_spec (sp : Buf) (v : List Nat) :
    ∀ n, (memcpy sp v n).written = sp.written ++ List.range n ∧
      ∀ i, (memcpy sp v n).bytes i = if i < n then v.getD i 0 else sp.bytes i := by
  intro n
  induction n with
  | zero => simp [memcpy]
  | succ n ih =>
    rw [memcpy_succ]
    refine ⟨?_, ?_⟩
    · simp [Buf.store, ih.1, List.range_succ]
    · intro i
      simp only [Buf.store, ih.2]
      by_cases hi : i = n
      · simp [hi]
      · by_cases hlt : i < n
        · simp [hi, hlt, Nat.lt_succ_of_lt hlt]
        · have : ¬ i < n + 1 := by omega
          simp [hi, hlt, this]

theorem size_sub_one (cap : Nat) (h1 : 1 ≤ cap) (h2 : cap < 2 ^ SIZE_WIDTH) :
    size_sub cap 1 = cap - 1 := by
  simp only [size_sub, SIZE_WIDTH] at *
  omega

/-- With a capacity of at least one the copy-out block keeps to the contract. -/
theorem copy_out_within (sp : Buf) (v : List Nat) (cap : Nat) (h1 : 1 ≤ cap)
    (h2 : cap < 2 ^ SIZE_WIDTH) : CopiedWithin sp (copy_out sp v cap) v cap := by
  have hsize : (if strlen v < size_sub cap 1 then strlen v else size_sub cap 1) =
      min (strlen v) (cap - 1) := by
    rw [size_sub_one cap h1 h2]
    split_ifs with hlt
    · exact (Nat.min_eq_left (Nat.le_of_lt hlt)).symm
    · exact (Nat.min_eq_right (Nat.le_of_not_lt hlt)).symm
  simp only [copy_out, hsize]
  set k := min (strlen v) (cap - 1) with hk
  obtain ⟨hw, hb⟩ := memcpy_spec sp v k
  refine ⟨?_, ?_, ?_, ?_, ?_⟩
  · simp [Buf.store, hw, List.range_succ]
  · intro i hi
    have : i ≠ k := by omega
    simp [Buf.store, this, hb, hi]
  · simp [Buf.store]
  · intro i hi
    have h3 : i ≠ k := by omega
    have h4 : ¬ i < k := by omega
    simp [Buf.store, h3, hb, h4]
  · intro i hi
    have := List.mem_range.mp hi
    have hle : k ≤ cap - 1 := Nat.min_le_right _ _
    omega

/-- C10, as the claim states it, fails at capacity `0`: `bufsize - 1` wraps to
`SIZE_MAX`, the whole text `"ab"` and its terminator are stored at offsets
`0, 1, 2`, none of which is below the capacity. -/
theorem q_remove_zero_capacity_overflows :
    WF (ringOf [txt "ab"]) 0 [1] ∧
    (q_remove_head (ringOf [txt "ab"]) (some 0) (some freshBuf) 0).map
      (fun r => (r.1, r.2.2.map (fun b => (b.written, b.written.map b.bytes)))) =
      .ok (some 1, some ([0, 1, 2], [97, 98, 0])) ∧
    (q_remove_tail (ringOf [txt "ab"]) (some 0) (some freshBuf) 0).map
      (fun r => (r.1, r.2.2.map (fun b => (b.written, b.written.map b.bytes)))) =
      .ok (some 1, some ([0, 1, 2], [97, 98, 0])) ∧
    ¬ (∀ i ∈ [0, 1, 2], i < 0) :=
  ⟨by decide, by decide, by decide, by decide⟩

/-- C10 amended: for a well-formed non-empty queue, a supplied buffer and a
capacity `1 ≤ cap < 2 ^ 64`, `q_remove_head` returns the first element and
`q_remove_tail` the last one, and the buffer receives exactly the
`min (strlen text) (cap - 1)` leading bytes of its text followed by one null
byte, every store at an offset below `cap`. -/
theorem q_remove_copies_within (h : Heap) (hd : Nat) (ns : List Nat) (sp : Buf) (cap : Nat)
    (hwf : WF h hd ns) (hne : ns ≠ []) (hcap1 : 1 ≤ cap) (hcap2 : cap < 2 ^ SIZE_WIDTH) :
    (∃ e h1 sp1, q_remove_head h (some hd) (some sp) cap = .ok (some e, h1, some sp1) ∧
      ns.head? = some e ∧ CopiedWithin sp sp1 (h.value e) cap) ∧
    (∃ e h1 sp1, q_remove_tail h (some hd) (some sp) cap = .ok (some e, h1, some sp1) ∧
      ns.getLast? = some e ∧ CopiedWithin sp sp1 (h.value e) cap) := by
  have hnot : hd ∉ ns := (List.nodup_cons.mp hwf.1).1
  have hne1 : h.next hd ≠ some hd := by
    cases ns with
    | nil => exact absurd rfl hne
    | cons a l =>
      have ha : h.next hd = some a := hwf.2.1.1
      have : a ≠ hd := fun e => hnot (e ▸ List.mem_cons_self _ _)
      simp [ha, this]
  constructor
  · cases ns with
    | nil => exact absurd rfl hne
    | cons a l =>
      have ha : h.next hd = some a := hwf.2.1.1
      have hwf' : WF h hd ([] ++ a :: l) := hwf
      obtain ⟨h1, hdel, _⟩ := list_del_init_chain hwf'
      refine ⟨a, h1, copy_out sp (h.value a) cap, ?_, rfl, copy_out_within sp _ cap hcap1 hcap2⟩
      have hahd : a ≠ hd := fun e => hnot (e ▸ List.mem_cons_self _ _)
      simp [q_remove_head, ha, hahd, hdel]
  · have hsplit : ns = ns.dropLast ++ [ns.getLast hne] :=
      (List.dropLast_append_getLast hne).symm
    have hwf' : WF h hd (ns.dropLast ++ [ns.getLast hne]) := by rw [← hsplit]; exact hwf
    obtain ⟨hprev, _⟩ := wf_last hwf'
    obtain ⟨h1, hdel, _⟩ := list_del_init_chain hwf'
    refine ⟨ns.getLast hne, h1, copy_out sp (h.value (ns.getLast hne)) cap, ?_,
      List.getLast?_eq_getLast ns hne, copy_out_within sp _ cap hcap1 hcap2⟩
    simp [q_remove_tail, hne1, hprev, hdel]

/-- C10 amended, at the queue `["ab"]` with capacity `2`: one byte and the
terminator are stored. -/
theorem q_remove_copies_within_witness :
    WF (ringOf [txt "ab"]) 0 [1] ∧
    (∃ e h1 sp1, q_remove_head (ringOf [txt "ab"]) (some 0) (some freshBuf) 2 =
        .ok (some e, h1, some sp1) ∧
      [1].head? = some e ∧ CopiedWithin freshBuf sp1 ((ringOf [txt "ab"]).value e) 2) ∧
    (∃ e h1 sp1, q_remove_tail (ringOf [txt "ab"]) (some 0) (some freshBuf) 2 =
        .ok (some e, h1, some sp1) ∧
      [1].getLast? = some e ∧ CopiedWithin freshBuf sp1 ((ringOf [txt "ab"]).value e) 2) :=
  ⟨by decide, q_remove_copies_within (ringOf [txt "ab"]) 0 [1] freshBuf 2 (by decide)
    (by decide) (by decide) (by decide)⟩

/-! ## The ring in both directions -/

/-- Following `prev` from the end of a chain whose nodes satisfy
`n.next.prev == n` visits the chain in reverse. -/
theorem chain_reverse {nx pv : Nat → Ptr} :
    ∀ (l : List Nat) (a e : Nat), Chain nx (nx a) l (some e) →
      (∀ n ∈ a :: l, (nx n).bind pv = some n) → Chain pv (pv e) l.reverse (some a) := by
  intro l
  induction l with
  | nil =>
    intro a e hc hinv
    have h1 : nx a = some e := hc
    have h2 := hinv a (List.mem_cons_self _ _)
    rw [h1] at h2
    exact h2
  | cons x l ih =>
    intro a e hc hinv
    have h1 : nx a = some x := hc.1
    have h2 := hinv a (List.mem_cons_self _ _)
    rw [h1] at h2
    have hrec := ih x e hc.2 (fun n hn => hinv n (List.mem_cons_of_mem _ hn))
    rw [List.reverse_cons]
    exact chain_append.mpr ⟨some x, hrec, rfl, h2⟩

/-- A forward and a backward chain over the same nodes give `n.next.prev == n`. -/
theorem succ_of_chains {nx pv : Nat → Ptr} :
    ∀ (l : List Nat) (a e : Nat), Chain nx (nx a) l (some e) →
      Chain pv (pv e) l.reverse (some a) → ∀ n ∈ a :: l, (nx n).bind pv = some n := by
  intro l
  induction l with
  | nil =>
    intro a e hc hb n hn
    have h1 : nx a = some e := hc
    have h2 : pv e = some a := hb
    have : n = a := by simpa using hn
    subst this
    simp [h1, h2]
  | cons x l ih =>
    intro a e hc hb n hn
    have h1 : nx a = some x := hc.1
    rw [List.reverse_cons] at hb
    obtain ⟨r, hb1, hb2⟩ := chain_append.mp hb
    have hr : r = some x := hb2.1
    have h2 : pv x = some a := hb2.2
    rw [hr] at hb1
    rcases List.mem_cons.mp hn with hn | hn
    · subst hn
      simp [h1, h2]
    · exact ih x e hc.2 hb1 n hn

/-- A queue is well formed exactly when its nodes are distinct, `next` runs
through them from the sentinel back to the sentinel, and `prev` runs through
them in the opposite order. -/
theorem wf_iff_chains (h : Heap) (hd : Nat) (ns : List Nat) :
    WF h hd ns ↔ (hd :: ns).Nodup ∧ Chain h.next (h.next hd) ns (some hd) ∧
      Chain h.prev (h.prev hd) ns.reverse (some hd) := by
  constructor
  · rintro ⟨hnd, hfwd, hinv⟩
    exact ⟨hnd, hfwd, chain_reverse ns hd hd hfwd (fun n hn => (hinv n hn).1)⟩
  · rintro ⟨hnd, hfwd, hbwd⟩
    refine ⟨hnd, hfwd, ?_⟩
    intro n hn
    refine ⟨succ_of_chains ns hd hd hfwd hbwd n hn, ?_⟩
    have hfwd' : Chain h.next (h.next hd) ns.reverse.reverse (some hd) := by
      rw [List.reverse_reverse]; exact hfwd
    refine succ_of_chains ns.reverse hd hd hbwd hfwd' n ?_
    rcases List.mem_cons.mp hn with hn | hn
    · exact hn ▸ List.mem_cons_self _ _
    · exact List.mem_cons_of_mem _ (List.mem_reverse.mpr hn)

/-- Reading a well-formed queue in the other direction gives a well-formed
queue with the nodes in reverse order. -/
theorem wf_mirror {h : Heap} {hd : Nat} {ns : List Nat} (hwf : WF h hd ns) :
    WF h.mirror hd ns.reverse := by
  obtain ⟨hnd, hfwd, hbwd⟩ := (wf_iff_chains h hd ns).mp hwf
  refine (wf_iff_chains h.mirror hd ns.reverse).mpr ⟨?_, hbwd, ?_⟩
  · have := List.nodup_cons.mp hnd
    exact List.nodup_cons.mpr ⟨fun hm => this.1 (List.mem_reverse.mp hm),
      List.nodup_reverse.mpr this.2⟩
  · rw [List.reverse_reverse]; exact hfwd

/-- Well-formedness only depends on the links of the ring's own nodes. -/
theorem wf_congr {h h1 : Heap} {hd : Nat} {ns : List Nat} (hwf : WF h hd ns)
    (hn : ∀ n ∈ hd :: ns, h1.next n = h.next n) (hp : ∀ n ∈ hd :: ns, h1.prev n = h.prev n) :
    WF h1 hd ns := by
  obtain ⟨hnd, hfwd, hbwd⟩ := (wf_iff_chains h hd ns).mp hwf
  refine (wf_iff_chains h1 hd ns).mpr ⟨hnd, ?_, ?_⟩
  · rw [hn hd (List.mem_cons_self _ _)]
    exact chain_congr (fun n hm => hn n (List.mem_cons_of_mem _ hm)) hfwd
  · rw [hp hd (List.mem_cons_self _ _)]
    exact chain_congr (fun n hm => hp n (List.mem_cons_of_mem _ (List.mem_reverse.mp hm))) hbwd

/-- The backward iterator returns the nodes of a `prev` chain that ends on the
sentinel. -/
theorem list_for_each_prev_chain (h : Heap) (hd : Nat) :
    ∀ (ns : List Nat) (p : Ptr) (fuel : Nat), Chain h.prev p ns (some hd) → hd ∉ ns →
      ns.length < fuel → list_for_each_prev h hd fuel p = .ok ns := by
  intro ns
  induction ns with
  | nil =>
    intro p fuel hc _ hf
    have hp : p = some hd := hc
    cases fuel with
    | zero => omega
    | succ fuel => simp [list_for_each_prev, hp]
  | cons n ns ih =>
    intro p fuel hc hnot hf
    cases fuel with
    | zero => omega
    | succ fuel =>
      have hp : p = some n := hc.1
      have hne : n ≠ hd := fun e => hnot (e ▸ List.mem_cons_self _ _)
      have hrec := ih (h.prev n) fuel hc.2 (fun hm => hnot (List.mem_cons_of_mem _ hm))
        (by simpa using hf)
      simp [list_for_each_prev, hp, hne, hrec]

/-- In a well-formed queue the forward traversal returns the nodes in order and
the backward traversal returns them in the opposite order. -/
theorem wf_traversals {h : Heap} {hd : Nat} {ns : List Nat} (hwf : WF h hd ns) (fuel : Nat)
    (hf : ns.length < fuel) :
    forward fuel h hd = .ok ns ∧ backward fuel h hd = .ok ns.reverse := by
  obtain ⟨hnd, hfwd, hbwd⟩ := (wf_iff_chains h hd ns).mp hwf
  have hnot : hd ∉ ns := (List.nodup_cons.mp hnd).1
  exact ⟨forward_of_chain h hd ns fuel hfwd hnot hf,
    list_for_each_prev_chain h hd ns.reverse _ fuel hbwd
      (fun hm => hnot (List.mem_reverse.mp hm)) (by simpa using hf)⟩

/-! ## The list core keeps the ring well formed -/

@[simp] theorem mirror_next (h : Heap) : h.mirror.next = h.prev := rfl

@[simp] theorem mirror_prev (h : Heap) : h.mirror.prev = h.next := rfl

@[simp] theorem mirror_value (h : Heap) : h.mirror.value = h.value := rfl

/-- Unlinking commutes with reading the heap in the other direction. -/
theorem list_del_init_mirror (h : Heap) (m : Nat) :
    list_del_init h.mirror m = (list_del_init h m).map Heap.mirror := by
  cases hn : h.next m <;> cases hp : h.prev m <;>
    (simp [list_del_init, list_del, hn, hp, Except.map, bind, Except.bind]; first | done | rfl)

/-- Linking after the sentinel in one direction is linking before it in the other. -/
theorem list_add_mirror (h : Heap) (e hd : Nat) :
    list_add_tail h.mirror e hd = (list_add h e hd).map Heap.mirror := by
  cases hn : h.next hd <;>
    (simp [list_add, list_add_tail, hn, Except.map, bind, Except.bind]; first | done | rfl)

/-- Linking before the sentinel in one direction is linking after it in the other. -/
theorem list_add_tail_mirror (h : Heap) (e hd : Nat) :
    list_add h.mirror e hd = (list_add_tail h e hd).map Heap.mirror := by
  cases hp : h.prev hd <;>
    (simp [list_add, list_add_tail, hp, Except.map, bind, Except.bind]; first | done | rfl)

/-- Unlinking an element of a well-formed queue leaves a well-formed queue
without that element; the removed node is self-linked. -/
theorem list_del_init_wf {h : Heap} {hd : Nat} {l1 l2 : List Nat} {m : Nat}
    (hwf : WF h hd (l1 ++ m :: l2)) :
    ∃ h1, list_del_init h m = .ok h1 ∧ WF h1 hd (l1 ++ l2) ∧ h1.value = h.value ∧
      h1.freed = h.freed := by
  obtain ⟨h1, hdel, hfwd, hval, hfr⟩ := list_del_init_chain hwf
  have hm := wf_mirror hwf
  have e1 : (l1 ++ m :: l2).reverse = l2.reverse ++ m :: l1.reverse := by simp
  rw [e1] at hm
  obtain ⟨h2, hdel2, hbwd, _, _⟩ := list_del_init_chain hm
  rw [list_del_init_mirror, hdel] at hdel2
  have h21 : h2 = h1.mirror := by
    simp only [Except.map] at hdel2
    exact (Except.ok.inj hdel2).symm
  rw [h21] at hbwd
  refine ⟨h1, hdel, (wf_iff_chains h1 hd (l1 ++ l2)).mpr ⟨?_, hfwd, ?_⟩, hval, hfr⟩
  · refine List.Nodup.sublist ?_ hwf.1
    exact List.Sublist.cons₂ _ (List.Sublist.append_left (List.sublist_cons_self _ _) _)
  · have e2 : (l1 ++ l2).reverse = l2.reverse ++ l1.reverse := by simp
    rw [e2]
    exact hbwd

/-- Linking a fresh node after the sentinel: the forward chain gets it in front. -/
theorem list_add_chain {h : Heap} {hd e : Nat} {ns : List Nat} (hwf : WF h hd ns)
    (he : e ∉ hd :: ns) :
    ∃ h1, list_add h e hd = .ok h1 ∧ Chain h1.next (h1.next hd) (e :: ns) (some hd) ∧
      h1.value = h.value ∧ h1.freed = h.freed := by
  obtain ⟨hnd, hfwd, _⟩ := hwf
  obtain ⟨first, hfirst⟩ := chain_start_some hfwd
  have hnot : hd ∉ ns := (List.nodup_cons.mp hnd).1
  have hehd : e ≠ hd := fun c => he (c ▸ List.mem_cons_self _ _)
  refine ⟨(((h.setPrev first (some e)).setNext e (some first)).setPrev e (some hd)).setNext hd
    (some e), by simp [list_add, hfirst], ?_, rfl, rfl⟩
  refine ⟨by simp, ?_⟩
  have hstart : ((((h.setPrev first (some e)).setNext e (some first)).setPrev e
      (some hd)).setNext hd (some e)).next e = h.next hd := by
    simp [hehd, hfirst]
  rw [hstart]
  refine chain_congr ?_ hfwd
  intro n hn
  have h1 : n ≠ hd := fun c => hnot (c ▸ hn)
  have h2 : n ≠ e := fun c => he (c ▸ List.mem_cons_of_mem _ hn)
  simp [h1, h2]

/-- Linking a fresh node before the sentinel: the forward chain gets it at the end. -/
theorem list_add_tail_chain {h : Heap} {hd e : Nat} {ns : List Nat} (hwf : WF h hd ns)
    (he : e ∉ hd :: ns) :
    ∃ h1, list_add_tail h e hd = .ok h1 ∧ Chain h1.next (h1.next hd) (ns ++ [e]) (some hd) ∧
      h1.value = h.value ∧ h1.freed = h.freed := by
  have hm := wf_mirror hwf
  have he' : e ∉ hd :: ns.reverse := by
    intro hmem
    rcases List.mem_cons.mp hmem with c | c
    · exact he (c ▸ List.mem_cons_self _ _)
    · exact he (List.mem_cons_of_mem _ (List.mem_reverse.mp c))
  obtain ⟨hnd, hfwd, _⟩ := hwf
  have hnot : hd ∉ ns := (List.nodup_cons.mp hnd).1
  have hehd : e ≠ hd := fun c => he (c ▸ List.mem_cons_self _ _)
  -- the last node of the ring is `head->prev`
  have hne : hd :: ns ≠ [] := List.cons_ne_nil _ _
  have hsplit : hd :: ns = (hd :: ns).dropLast ++ [(hd :: ns).getLast hne] :=
    (List.dropLast_append_getLast hne).symm
  set c0 := (hd :: ns).dropLast
  set last := (hd :: ns).getLast hne
  have hcyc : Chain h.next (some hd) (c0 ++ [last]) (some hd) := by
    rw [← hsplit]; exact ⟨rfl, hfwd⟩
  obtain ⟨r, hc0, hc1⟩ := chain_append.mp hcyc
  have hlast : h.next last = some hd := hc1.2
  have hprev : h.prev hd = some last := by
    have hbw := hm.2.1
    have hmemlast : last ∈ hd :: ns := List.getLast_mem hne
    have := (hm.2.2 last (by
      rcases List.mem_cons.mp hmemlast with c | c
      · exact c ▸ List.mem_cons_self _ _
      · exact List.mem_cons_of_mem _ (List.mem_reverse.mpr c))).2
    simp only [mirror_prev, mirror_next, hlast] at this
    exact this
  have hpre : Chain h.next (some hd) (c0 ++ [last]) (h.next last) :=
    chain_append.mpr ⟨r, hc0, hc1.1, rfl⟩
  have hl0 : last ∉ c0 := by
    have : (c0 ++ [last]).Nodup := by rw [← hsplit]; exact hnd
    exact fun hmem => (List.nodup_append.mp this).2.2 hmem (List.mem_singleton_self _)
  have hela : e ≠ last := fun c => he (c ▸ List.getLast_mem hne)
  set h1 : Heap := (((h.setNext last (some e)).setNext e (some hd)).setPrev e
    (some last)).setPrev hd (some e) with hh1
  have hnx : ∀ x, h1.next x = if x = e then some hd else if x = last then some e
      else h.next x := by
    intro x; simp [hh1]
  have hc2 := chain_snoc_set h1.next hpre (by
    intro n hn
    have h2 : n ≠ last := fun c => hl0 (c ▸ hn)
    have h3 : n ≠ e := by
      intro c
      have : n ∈ hd :: ns := by rw [hsplit]; exact List.mem_append_left _ hn
      exact he (c ▸ this)
    simp [hnx, h2, h3])
  have hc3 : Chain h1.next (some hd) ((c0 ++ [last]) ++ [e]) (some hd) := by
    refine chain_append.mpr ⟨_, hc2, ?_⟩
    simp [hnx, hela.symm]
  rw [← hsplit] at hc3
  exact ⟨h1, by simp [list_add_tail, hprev, hh1], hc3.2, rfl, rfl⟩

/-- Linking a fresh node after the sentinel of a well-formed queue. -/
theorem list_add_wf {h : Heap} {hd e : Nat} {ns : List Nat} (hwf : WF h hd ns)
    (he : e ∉ hd :: ns) :
    ∃ h1, list_add h e hd = .ok h1 ∧ WF h1 hd (e :: ns) ∧ h1.value = h.value ∧
      h1.freed = h.freed := by
  obtain ⟨h1, hadd, hfwd, hval, hfr⟩ := list_add_chain hwf he
  have he' : e ∉ hd :: ns.reverse := by
    intro hmem
    rcases List.mem_cons.mp hmem with c | c
    · exact he (c ▸ List.mem_cons_self _ _)
    · exact he (List.mem_cons_of_mem _ (List.mem_reverse.mp c))
  obtain ⟨h2, hadd2, hbwd, _, _⟩ := list_add_tail_chain (wf_mirror hwf) he'
  rw [list_add_mirror, hadd] at hadd2
  have h21 : h2 = h1.mirror := by
    simp only [Except.map] at hadd2
    exact (Except.ok.inj hadd2).symm
  rw [h21] at hbwd
  refine ⟨h1, hadd, (wf_iff_chains h1 hd (e :: ns)).mpr ⟨?_, hfwd, ?_⟩, hval, hfr⟩
  · have := List.nodup_cons.mp hwf.1
    refine List.nodup_cons.mpr ⟨?_, List.nodup_cons.mpr ⟨?_, this.2⟩⟩
    · intro hmem
      rcases List.mem_cons.mp hmem with c | c
      · exact he (c ▸ List.mem_cons_self _ _)
      · exact this.1 c
    · exact fun hmem => he (List.mem_cons_of_mem _ hmem)
  · rw [List.reverse_cons]
    exact hbwd

/-- Linking a fresh node before the sentinel of a well-formed queue. -/
theorem list_add_tail_wf {h : Heap} {hd e : Nat} {ns : List Nat} (hwf : WF h hd ns)
    (he : e ∉ hd :: ns) :
    ∃ h1, list_add_tail h e hd = .ok h1 ∧ WF h1 hd (ns ++ [e]) ∧ h1.value = h.value ∧
      h1.freed = h.freed := by
  obtain ⟨h1, hadd, hfwd, hval, hfr⟩ := list_add_tail_chain hwf he
  have he' : e ∉ hd :: ns.reverse := by
    intro hmem
    rcases List.mem_cons.mp hmem with c | c
    · exact he (c ▸ List.mem_cons_self _ _)
    · exact he (List.mem_cons_of_mem _ (List.mem_reverse.mp c))
  obtain ⟨h2, hadd2, hbwd, _, _⟩ := list_add_chain (wf_mirror hwf) he'
  rw [list_add_tail_mirror, hadd] at hadd2
  have h21 : h2 = h1.mirror := by
    simp only [Except.map] at hadd2
    exact (Except.ok.inj hadd2).symm
  rw [h21] at hbwd
  refine ⟨h1, hadd, (wf_iff_chains h1 hd (ns ++ [e])).mpr ⟨?_, hfwd, ?_⟩, hval, hfr⟩
  · have := List.nodup_cons.mp hwf.1
    refine List.nodup_cons.mpr ⟨?_, ?_⟩
    · intro hmem
      rcases List.mem_append.mp hmem with c | c
      · exact this.1 c
      · exact he ((List.mem_singleton.mp c) ▸ List.mem_cons_self _ _)
    · refine List.nodup_append.mpr ⟨this.2, List.nodup_singleton _, ?_⟩
      intro a ha hb
      exact he ((List.mem_singleton.mp hb) ▸ List.mem_cons_of_mem _ ha)
  · have e2 : (ns ++ [e]).reverse = e :: ns.reverse := by simp
    rw [e2]
    exact hbwd

/-! ## Insertion and removal at the ends -/

@[simp] theorem setValue_next (h : Heap) (a : Nat) (s : List Nat) :
    (h.setValue a s).next = h.next := rfl

@[simp] theorem setValue_prev (h : Heap) (a : Nat) (s : List Nat) :
    (h.setValue a s).prev = h.prev := rfl

@[simp] theorem setValue_value (h : Heap) (a : Nat) (s : List Nat) (x : Nat) :
    (h.setValue a s).value x = if x = a then s else h.value x := rfl

/-- In a well-formed non-empty queue `head->next` is not the sentinel. -/
theorem wf_nonempty {h : Heap} {hd a : Nat} {l : List Nat} (hwf : WF h hd (a :: l)) :
    h.next hd = some a ∧ a ≠ hd :=
  ⟨hwf.2.1.1, fun c => (List.nodup_cons.mp hwf.1).1 (c ▸ List.mem_cons_self _ _)⟩

/-- The run of `q_remove_head` on a well-formed non-empty queue. -/
theorem q_remove_head_wf {h : Heap} {hd a : Nat} {l : List Nat} (hwf : WF h hd (a :: l))
    (sp : Option Buf) (cap : Nat) :
    ∃ h1, q_remove_head h (some hd) sp cap =
        .ok (some a, h1, sp.map (fun b => copy_out b (h.value a) cap)) ∧
      WF h1 hd l ∧ h1.value = h.value ∧ h1.freed = h.freed := by
  obtain ⟨ha, hahd⟩ := wf_nonempty hwf
  have hwf' : WF h hd ([] ++ a :: l) := hwf
  obtain ⟨h1, hdel, hwf1, hval, hfr⟩ := list_del_init_wf hwf'
  exact ⟨h1, by simp [q_remove_head, ha, hahd, hdel], hwf1, hval, hfr⟩

/-- The run of `q_remove_tail` on a well-formed non-empty queue. -/
theorem q_remove_tail_wf {h : Heap} {hd a : Nat} {l : List Nat} (hwf : WF h hd (l ++ [a]))
    (sp : Option Buf) (cap : Nat) :
    ∃ h1, q_remove_tail h (some hd) sp cap =
        .ok (some a, h1, sp.map (fun b => copy_out b (h.value a) cap)) ∧
      WF h1 hd l ∧ h1.value = h.value ∧ h1.freed = h.freed := by
  obtain ⟨hprev, _⟩ := wf_last hwf
  have hne1 : h.next hd ≠ some hd := by
    cases l with
    | nil => exact fun c => (wf_nonempty hwf).2 (by rw [(wf_nonempty hwf).1] at c; exact Option.some.inj c)
    | cons b l =>
      have hw : WF h hd (b :: (l ++ [a])) := hwf
      exact fun c => (wf_nonempty hw).2 (by rw [(wf_nonempty hw).1] at c; exact Option.some.inj c)
  obtain ⟨h1, hdel, hwf1, hval, hfr⟩ := list_del_init_wf hwf
  refine ⟨h1, by simp [q_remove_tail, hne1, hprev, hdel], ?_, hval, hfr⟩
  simpa using hwf1

/-- The run of a successful `q_insert_head` on a well-formed queue, `e` being
the fresh address of the new element. -/
theorem q_insert_head_wf {h : Heap} {hd e : Nat} {ns : List Nat} (hwf : WF h hd ns)
    (he : e ∉ hd :: ns) (s : List Nat) :
    ∃ h1, q_insert_head h (some hd) s ⟨some e, true⟩ = .ok (h1, true) ∧ WF h1 hd (e :: ns) ∧
      h1.value e = s ∧ (∀ x, x ≠ e → h1.value x = h.value x) ∧ h1.freed = h.freed := by
  have hwf0 : WF (h.setValue e (s.take (strlen s))) hd ns :=
    wf_congr hwf (fun _ _ => rfl) (fun _ _ => rfl)
  obtain ⟨h1, hadd, hwf1, hval, hfr⟩ := list_add_wf hwf0 he
  refine ⟨h1, by simp [q_insert_head, hadd], hwf1, ?_, ?_, hfr⟩
  · simp [hval, strlen]
  · intro x hx
    simp [hval, hx]

/-- The run of a successful `q_insert_tail` on a well-formed queue. -/
theorem q_insert_tail_wf {h : Heap} {hd e : Nat} {ns : List Nat} (hwf : WF h hd ns)
    (he : e ∉ hd :: ns) (s : List Nat) :
    ∃ h1, q_insert_tail h (some hd) s ⟨some e, true⟩ = .ok (h1, true) ∧ WF h1 hd (ns ++ [e]) ∧
      h1.value e = s ∧ (∀ x, x ≠ e → h1.value x = h.value x) ∧ h1.freed = h.freed := by
  have hwf0 : WF (h.setValue e (s.take (strlen s))) hd ns :=
    wf_congr hwf (fun _ _ => rfl) (fun _ _ => rfl)
  obtain ⟨h1, hadd, hwf1, hval, hfr⟩ := list_add_tail_wf hwf0 he
  refine ⟨h1, by simp [q_insert_tail, hadd], hwf1, ?_, ?_, hfr⟩
  · simp [hval, strlen]
  · intro x hx
    simp [hval, hx]

/-- The queue `q_new` returns is well formed and empty. -/
theorem q_new_wf (h : Heap) (a : Nat) :
    q_new h (some a) = (INIT_LIST_HEAD h a, some a) ∧ WF (INIT_LIST_HEAD h a) a [] := by
  refine ⟨rfl, ?_⟩
  refine (wf_iff_chains _ a []).mpr ⟨List.nodup_singleton a, ?_, ?_⟩ <;>
    simp [INIT_LIST_HEAD]

/-! ## `q_reverse` -/

/-- The loop of `q_reverse` exchanges `next` and `prev` on the nodes it runs
through and stores nowhere else. -/
theorem reverse_loop_spec (hd : Nat) :
    ∀ (rest : List Nat) (h : Heap) (cur : Ptr) (fuel : Nat),
      Chain h.next cur rest (some hd) → rest.Nodup → hd ∉ rest → rest.length < fuel →
      ∃ h1, reverse_loop hd fuel h cur = .ok h1 ∧
        (∀ x, h1.next x = if x ∈ rest then h.prev x else h.next x) ∧
        (∀ x, h1.prev x = if x ∈ rest then h.next x else h.prev x) ∧
        h1.value = h.value ∧ h1.freed = h.freed := by
  intro rest
  induction rest with
  | nil =>
    intro h cur fuel hc _ _ hf
    have hcur : cur = some hd := hc
    cases fuel with
    | zero => omega
    | succ fuel => exact ⟨h, by simp [reverse_loop, hcur], by simp, by simp, rfl, rfl⟩
  | cons c rest ih =>
    intro h cur fuel hc hnd hnot hf
    have hcur : cur = some c := hc.1
    have hne : c ≠ hd := fun e => hnot (e ▸ List.mem_cons_self _ _)
    have hnd' := List.nodup_cons.mp hnd
    cases fuel with
    | zero => omega
    | succ fuel =>
      have hc2 : Chain ((h.setNext c (h.prev c)).setPrev c (h.next c)).next (h.next c) rest
          (some hd) := by
        refine chain_congr ?_ hc.2
        intro n hn
        have : n ≠ c := fun e => hnd'.1 (e ▸ hn)
        simp [this]
      obtain ⟨h1, hrun, hnx, hpv, hval, hfr⟩ := ih _ (h.next c) fuel hc2 hnd'.2
        (fun hm => hnot (List.mem_cons_of_mem _ hm)) (by simpa using hf)
      refine ⟨h1, by simp [reverse_loop, hcur, hne, hrun], ?_, ?_, hval, hfr⟩
      · intro x
        rw [hnx x]
        by_cases hx : x = c
        · subst hx
          simp [hnd'.1]
        · by_cases hr : x ∈ rest <;> simp [hx, hr]
      · intro x
        rw [hpv x]
        by_cases hx : x = c
        · subst hx
          simp [hnd'.1]
        · by_cases hr : x ∈ rest <;> simp [hx, hr]

/-- The run of `q_reverse` on a well-formed queue: `next` and `prev` are
exchanged on every node of the ring, the sentinel included, and nothing else
is stored to. -/
theorem q_reverse_run {h : Heap} {hd : Nat} {ns : List Nat} (hwf : WF h hd ns) (fuel : Nat)
    (hf : ns.length < fuel) :
    ∃ h1, q_reverse fuel h (some hd) = .ok h1 ∧
      (∀ x, h1.next x = if x ∈ hd :: ns then h.prev x else h.next x) ∧
      (∀ x, h1.prev x = if x ∈ hd :: ns then h.next x else h.prev x) ∧
      h1.value = h.value ∧ h1.freed = h.freed := by
  obtain ⟨hnd, hfwd, hbwd⟩ := (wf_iff_chains h hd ns).mp hwf
  have hnd' := List.nodup_cons.mp hnd
  cases ns with
  | nil =>
    have hn : h.next hd = some hd := hfwd
    have hp : h.prev hd = some hd := hbwd
    refine ⟨h, by simp [q_reverse, hn], ?_, ?_, rfl, rfl⟩
    · intro x
      by_cases hx : x = hd
      · subst hx; simp [hn, hp]
      · simp [hx]
    · intro x
      by_cases hx : x = hd
      · subst hx; simp [hn, hp]
      · simp [hx]
  | cons a l =>
    obtain ⟨ha, hahd⟩ := wf_nonempty hwf
    obtain ⟨h1, hrun, hnx, hpv, hval, hfr⟩ := reverse_loop_spec hd (a :: l) h (h.next hd) fuel
      hfwd hnd'.2 hnd'.1 hf
    refine ⟨(h1.setNext hd (h1.prev hd)).setPrev hd (h1.next hd), ?_, ?_, ?_, hval, hfr⟩
    · rw [ha] at hrun
      simp [q_reverse, ha, hahd, hrun]
    · intro x
      by_cases hx : x = hd
      · subst hx
        simp [hpv, hnd'.1]
      · by_cases hr : x ∈ a :: l <;> simp [hx, hr, hnx]
    · intro x
      by_cases hx : x = hd
      · subst hx
        simp [hnx, hnd'.1]
      · by_cases hr : x ∈ a :: l <;> simp [hx, hr, hpv]

/-- After `q_reverse` the queue is well formed with its nodes in reverse order. -/
theorem q_reverse_wf {h : Heap} {hd : Nat} {ns : List Nat} (hwf : WF h hd ns) (fuel : Nat)
    (hf : ns.length < fuel) :
    ∃ h1, q_reverse fuel h (some hd) = .ok h1 ∧ WF h1 hd ns.reverse ∧
      h1.value = h.value ∧ h1.freed = h.freed := by
  obtain ⟨h1, hrun, hnx, hpv, hval, hfr⟩ := q_reverse_run hwf fuel hf
  refine ⟨h1, hrun, wf_congr (wf_mirror hwf) ?_ ?_, hval, hfr⟩
  · intro n hn
    have : n ∈ hd :: ns := by
      rcases List.mem_cons.mp hn with c | c
      · exact c ▸ List.mem_cons_self _ _
      · exact List.mem_cons_of_mem _ (List.mem_reverse.mp c)
    simp [hnx, this]
  · intro n hn
    have : n ∈ hd :: ns := by
      rcases List.mem_cons.mp hn with c | c
      · exact c ▸ List.mem_cons_self _ _
      · exact List.mem_cons_of_mem _ (List.mem_reverse.mp c)
    simp [hpv, this]

/-! ## Auxiliary facts for the remaining operations -/

/-- Two heaps with the same links, texts and released elements are equal. -/
theorem heap_ext {h1 h2 : Heap} (hn : ∀ x, h1.next x = h2.next x)
    (hp : ∀ x, h1.prev x = h2.prev x) (hv : h1.value = h2.value) (hf : h1.freed = h2.freed) :
    h1 = h2 := by
  cases h1
  cases h2
  simp only [Heap.mk.injEq]
  exact ⟨funext hn, funext hp, hv, hf⟩

theorem swapPairs_perm : ∀ (l : List Nat), (swapPairs l).Perm l
  | [] => List.Perm.refl _
  | [_] => List.Perm.refl _
  | a :: b :: rest => by
    have ih := swapPairs_perm rest
    simp only [swapPairs]
    exact (List.Perm.swap a b _).trans ((ih.cons b).cons a)

theorem swapPairs_swapPairs : ∀ (l : List Nat), swapPairs (swapPairs l) = l
  | [] => rfl
  | [_] => rfl
  | a :: b :: rest => by
    have ih := swapPairs_swapPairs rest
    simp [swapPairs, ih]

theorem swapPairs_getLast_odd : ∀ (l : List Nat), l.length % 2 = 1 →
    (swapPairs l).getLast? = l.getLast?
  | [], h => by simp at h
  | [_], _ => rfl
  | a :: b :: rest, h => by
    have hodd : rest.length % 2 = 1 := by
      simp only [List.length_cons] at h; omega
    have ih := swapPairs_getLast_odd rest hodd
    cases rest with
    | nil => simp at hodd
    | cons c rest =>
      have hne : swapPairs (c :: rest) ≠ [] := by
        intro e
        have := (swapPairs_perm (c :: rest)).length_eq
        rw [e] at this
        simp at this
      obtain ⟨x, xs, hx⟩ := List.exists_cons_of_ne_nil hne
      simp only [swapPairs] at hx ih ⊢
      rw [hx] at ih ⊢
      simpa [List.getLast?_cons_cons] using ih

/-- The value of an `int` counter after `n` increments from `0`. -/
theorem int_incr_iterate (n : Nat) :
    int_incr^[n] 0 = ((n : Int) + 2 ^ 31) % 2 ^ 32 - 2 ^ 31 := by
  induction n with
  | zero => rfl
  | succ n ih =>
    rw [Function.iterate_succ_apply', ih]
    simp only [int_incr, INT_WIDTH]
    push_cast
    omega

theorem int_incr_iterate_small (n : Nat) (hn : n < 2 ^ 31) : int_incr^[n] 0 = (n : Int) := by
  rw [int_incr_iterate]
  omega

/-- The counting loop of `q_size` increments once per node of the chain. -/
theorem size_loop_spec (h : Heap) (hd : Nat) :
    ∀ (l : List Nat) (li : Ptr) (acc : Int) (fuel : Nat), Chain h.next li l (some hd) →
      hd ∉ l → l.length < fuel → size_loop h hd fuel li acc = .ok (int_incr^[l.length] acc) := by
  intro l
  induction l with
  | nil =>
    intro li acc fuel hc _ hf
    have hli : li = some hd := hc
    cases fuel with
    | zero => omega
    | succ fuel => simp [size_loop, hli]
  | cons a l ih =>
    intro li acc fuel hc hnot hf
    have hli : li = some a := hc.1
    have hne : a ≠ hd := fun e => hnot (e ▸ List.mem_cons_self _ _)
    cases fuel with
    | zero => omega
    | succ fuel =>
      have hrec := ih (h.next a) (int_incr acc) fuel hc.2
        (fun hm => hnot (List.mem_cons_of_mem _ hm)) (by simpa using hf)
      simp [size_loop, hli, hne, hrec]

/-- The run of `q_size` on a well-formed queue of `n` elements: the `int`
result is `n` counted with wrap-around. -/
theorem q_size_run {h : Heap} {hd : Nat} {ns : List Nat} (hwf : WF h hd ns) (fuel : Nat)
    (hf : ns.length < fuel) : q_size fuel h (some hd) = .ok (int_incr^[ns.length] 0) :=
  size_loop_spec h hd ns _ 0 fuel hwf.2.1 (List.nodup_cons.mp hwf.1).1 hf

/-- A sequence of successful insertions with fresh, pairwise distinct
addresses keeps the queue well formed and places the nodes as `Ins.place` says. -/
theorem insert_seq_spec (hd : Nat) :
    ∀ (ops : List Ins) (h : Heap) (ns : List Nat), WF h hd ns →
      (ops.map Ins.addr).Nodup → (∀ op ∈ ops, op.addr ∉ hd :: ns) →
      ∃ h1, insert_seq hd ops h = .ok (h1, true) ∧ WF h1 hd (ops.foldl Ins.place ns) ∧
        (∀ op ∈ ops, h1.value op.addr = op.text) ∧
        (∀ x, x ∉ ops.map Ins.addr → h1.value x = h.value x) ∧
        (ops.foldl Ins.place ns).length = ns.length + ops.length := by
  intro ops
  induction ops with
  | nil =>
    intro h ns hwf _ _
    exact ⟨h, rfl, hwf, by simp, fun _ _ => rfl, rfl⟩
  | cons op ops ih =>
    intro h ns hwf hnd hfresh
    have hnd' := List.nodup_cons.mp (by simpa using hnd : (op.addr :: ops.map Ins.addr).Nodup)
    have hop : op.addr ∉ hd :: ns := hfresh op (List.mem_cons_self _ _)
    have hstep : ∃ h1, op.run hd h = .ok (h1, true) ∧ WF h1 hd (Ins.place ns op) ∧
        h1.value op.addr = op.text ∧ (∀ x, x ≠ op.addr → h1.value x = h.value x) ∧
        (Ins.place ns op).length = ns.length + 1 ∧
        (∀ x, x ∈ Ins.place ns op → x = op.addr ∨ x ∈ ns) := by
      cases op with
      | head e s =>
        obtain ⟨h1, hrun, hwf1, hv, hvo, _⟩ := q_insert_head_wf hwf hop s
        exact ⟨h1, hrun, hwf1, hv, hvo, by simp [Ins.place], by
          intro x hx; simpa [Ins.place, Ins.addr] using hx⟩
      | tail e s =>
        obtain ⟨h1, hrun, hwf1, hv, hvo, _⟩ := q_insert_tail_wf hwf hop s
        exact ⟨h1, hrun, hwf1, hv, hvo, by simp [Ins.place], by
          intro x hx
          have := List.mem_append.mp hx
          simpa [Ins.addr, or_comm] using this⟩
    obtain ⟨h1, hrun, hwf1, hv, hvo, hlen, hmem⟩ := hstep
    have hfresh1 : ∀ op' ∈ ops, op'.addr ∉ hd :: Ins.place ns op := by
      intro op' hop' hm
      rcases List.mem_cons.mp hm with c | c
      · exact hfresh op' (List.mem_cons_of_mem _ hop') (c ▸ List.mem_cons_self _ _)
      · rcases hmem _ c with c | c
        · exact hnd'.1 (c ▸ List.mem_map_of_mem _ hop')
        · exact hfresh op' (List.mem_cons_of_mem _ hop') (List.mem_cons_of_mem _ c)
    obtain ⟨h2, hrun2, hwf2, hv2, hvo2, hlen2⟩ := ih h1 (Ins.place ns op) hwf1 hnd'.2 hfresh1
    refine ⟨h2, ?_, hwf2, ?_, ?_, ?_⟩
    · simp [insert_seq, hrun, hrun2]
    · intro op' hop'
      rcases List.mem_cons.mp hop' with c | c
      · subst c
        rw [hvo2 _ hnd'.1, hv]
      · exact hv2 op' c
    · intro x hx
      have hx1 : x ≠ op.addr := fun c => hx (by simp [c])
      have hx2 : x ∉ ops.map Ins.addr := fun c => hx (by
        simp only [List.map_cons]; exact List.mem_cons_of_mem _ c)
      rw [hvo2 x hx2, hvo x hx1]
    · simp only [List.foldl_cons, List.length_cons] at hlen2 ⊢
      omega

/-- Removing at the head as many times as there are elements returns their
texts in forward order and leaves the queue empty. -/
theorem remove_heads_spec (hd : Nat) :
    ∀ (ns : List Nat) (h : Heap), WF h hd ns →
      ∃ h2, remove_heads hd ns.length h = .ok (texts h ns, h2) ∧ WF h2 hd [] := by
  intro ns
  induction ns with
  | nil => intro h hwf; exact ⟨h, rfl, hwf⟩
  | cons a l ih =>
    intro h hwf
    obtain ⟨h1, hrun, hwf1, hval, _⟩ := q_remove_head_wf hwf none 0
    obtain ⟨h2, hrun2, hwf2⟩ := ih h1 hwf1
    refine ⟨h2, ?_, hwf2⟩
    simp [remove_heads, hrun, hrun2, texts, hval]

/-- The run of `q_delete_mid` on a well-formed queue. -/
theorem q_delete_mid_wf {h : Heap} {hd : Nat} {ns : List Nat} (hwf : WF h hd ns) (fuel : Nat)
    (hf : ns.length < fuel) :
    ∃ h1, q_delete_mid fuel h (some hd) = .ok (h1, !ns.isEmpty) ∧
      WF h1 hd (ns.eraseIdx (ns.length / 2)) ∧ h1.value = h.value := by
  cases ns with
  | nil =>
    have hn : h.next hd = some hd := hwf.2.1
    exact ⟨h, by simp [q_delete_mid, hn], hwf, rfl⟩
  | cons a l =>
    set ns := a :: l with hns
    have hpos : 0 < ns.length := by simp [hns]
    have hk : ns.length / 2 < ns.length := Nat.div_lt_self hpos (by decide)
    set k := ns.length / 2 with hkdef
    have hdrop : ns.drop k = ns[k] :: ns.drop (k + 1) := List.drop_eq_getElem_cons hk
    have hsplit : ns = ns.take k ++ ns[k] :: ns.drop (k + 1) := by
      rw [← hdrop, List.take_append_drop]
    have hnot : hd ∉ ns := (List.nodup_cons.mp hwf.1).1
    obtain ⟨r, hr, hc⟩ := find_mid_loop_spec h hd ns ns (h.next hd) (h.next hd) fuel
      hwf.2.1 hwf.2.1 hnot (le_refl _) (by omega)
    rw [← hkdef, hdrop] at hc
    have hrm : r = some ns[k] := hc.1
    have hfind : find_mid fuel h (some hd) = .ok (some ns[k]) := by
      simp [find_mid, hr, hrm]
    obtain ⟨ha, hahd⟩ := wf_nonempty hwf
    have hwf' : WF h hd (ns.take k ++ ns[k] :: ns.drop (k + 1)) := by
      rw [← hsplit]; exact hwf
    obtain ⟨h1, hdel, hwf1, hval, _⟩ := list_del_init_wf hwf'
    refine ⟨q_release_element h1 ns[k], ?_, ?_, hval⟩
    · simp [q_delete_mid, ha, hahd, hfind, hdel, hns]
    · rw [List.eraseIdx_eq_take_drop_succ]
      exact wf_congr hwf1 (fun _ _ => rfl) (fun _ _ => rfl)

/-! ## Reversal and double swap -/

/-- C11: on a well-formed queue with forward contents `ns`, `q_reverse`
returns; afterwards the forward traversal is `ns` reversed and the backward
traversal is `ns`; no text changes, nothing is released, and no node outside
the ring has a link changed. -/
theorem q_reverse_reverses (h : Heap) (hd : Nat) (ns : List Nat) (fuel : Nat)
    (hwf : WF h hd ns) (hf : ns.length < fuel) :
    ∃ h1, q_reverse fuel h (some hd) = .ok h1 ∧ forward fuel h1 hd = .ok ns.reverse ∧
      backward fuel h1 hd = .ok ns ∧ h1.value = h.value ∧ h1.freed = h.freed ∧
      texts h1 ns.reverse = (texts h ns).reverse ∧
      (∀ x, x ∉ hd :: ns → h1.next x = h.next x ∧ h1.prev x = h.prev x) := by
  obtain ⟨h1, hrun, hnx, hpv, hval, hfr⟩ := q_reverse_run hwf fuel hf
  obtain ⟨h2, hrun2, hwf2, _, _⟩ := q_reverse_wf hwf fuel hf
  have h21 : h2 = h1 := by
    rw [hrun] at hrun2
    exact (Except.ok.inj hrun2).symm
  rw [h21] at hwf2
  obtain ⟨hfw, hbw⟩ := wf_traversals hwf2 fuel (by simpa using hf)
  refine ⟨h1, hrun, hfw, by simpa using hbw, hval, hfr, by simp [texts, hval], ?_⟩
  intro x hx
  simp [hnx, hpv, hx]

/-- C11 at the queue `[a,b,c]`. -/
theorem q_reverse_reverses_witness :
    WF (ringOf [txt "a", txt "b", txt "c"]) 0 [1, 2, 3] ∧
    ∃ h1, q_reverse 4 (ringOf [txt "a", txt "b", txt "c"]) (some 0) = .ok h1 ∧
      forward 4 h1 0 = .ok [1, 2, 3].reverse ∧ backward 4 h1 0 = .ok [1, 2, 3] ∧
      h1.value = (ringOf [txt "a", txt "b", txt "c"]).value ∧
      h1.freed = (ringOf [txt "a", txt "b", txt "c"]).freed ∧
      texts h1 [1, 2, 3].reverse = (texts (ringOf [txt "a", txt "b", txt "c"]) [1, 2, 3]).reverse ∧
      (∀ x, x ∉ 0 :: [1, 2, 3] → h1.next x = (ringOf [txt "a", txt "b", txt "c"]).next x ∧
        h1.prev x = (ringOf [txt "a", txt "b", txt "c"]).prev x) :=
  ⟨by decide,
    q_reverse_reverses (ringOf [txt "a", txt "b", txt "c"]) 0 [1, 2, 3] 4 (by decide)
      (by decide)⟩

/-- C12: on a well-formed queue `q_reverse` applied twice returns the heap it
started from, every `next` and `prev` link included; on an empty or
single-element queue one application already changes nothing. -/
theorem q_reverse_involution (h : Heap) (hd : Nat) (ns : List Nat) (fuel : Nat)
    (hwf : WF h hd ns) (hf : ns.length < fuel) :
    ∃ h1, q_reverse fuel h (some hd) = .ok h1 ∧ q_reverse fuel h1 (some hd) = .ok h ∧
      (ns.length ≤ 1 → h1 = h) := by
  obtain ⟨h1, hrun, hnx, hpv, hval, hfr⟩ := q_reverse_run hwf fuel hf
  obtain ⟨h1', hrun', hwf1, _, _⟩ := q_reverse_wf hwf fuel hf
  have h11 : h1' = h1 := by
    rw [hrun] at hrun'
    exact (Except.ok.inj hrun').symm
  rw [h11] at hwf1
  obtain ⟨h2, hrun2, hnx2, hpv2, hval2, hfr2⟩ := q_reverse_run hwf1 fuel (by simpa using hf)
  have hmem : ∀ x, x ∈ hd :: ns.reverse ↔ x ∈ hd :: ns := by
    intro x; simp
  have h2h : h2 = h := by
    refine heap_ext ?_ ?_ (hval2.trans hval) (hfr2.trans hfr)
    · intro x
      rw [hnx2 x]
      by_cases hx : x ∈ hd :: ns
      · rw [if_pos ((hmem x).mpr hx), hpv x, if_pos hx]
      · rw [if_neg (fun c => hx ((hmem x).mp c)), hnx x, if_neg hx]
    · intro x
      rw [hpv2 x]
      by_cases hx : x ∈ hd :: ns
      · rw [if_pos ((hmem x).mpr hx), hnx x, if_pos hx]
      · rw [if_neg (fun c => hx ((hmem x).mp c)), hpv x, if_neg hx]
  refine ⟨h1, hrun, by rw [hrun2, h2h], ?_⟩
  intro hlen
  obtain ⟨_, hfwd, hbwd⟩ := (wf_iff_chains h hd ns).mp hwf
  have hsame : ∀ x, x ∈ hd :: ns → h.prev x = h.next x := by
    match ns, hlen, hfwd, hbwd with
    | [], _, hfwd, hbwd =>
      intro x hx
      have : x = hd := by simpa using hx
      subst this
      have h1 : h.next x = some x := hfwd
      have h2 : h.prev x = some x := hbwd
      rw [h1, h2]
    | [a], _, hfwd, hbwd =>
      intro x hx
      have hn1 : h.next hd = some a := hfwd.1
      have hn2 : h.next a = some hd := hfwd.2
      have hp1 : h.prev hd = some a := hbwd.1
      have hp2 : h.prev a = some hd := hbwd.2
      rcases List.mem_cons.mp hx with c | c
      · rw [c, hn1, hp1]
      · have : x = a := by simpa using c
        rw [this, hn2, hp2]
  refine heap_ext ?_ ?_ hval hfr
  · intro x
    rw [hnx x]
    by_cases hx : x ∈ hd :: ns
    · rw [if_pos hx, hsame x hx]
    · rw [if_neg hx]
  · intro x
    rw [hpv x]
    by_cases hx : x ∈ hd :: ns
    · rw [if_pos hx, hsame x hx]
    · rw [if_neg hx]

/-- C12 at the queue `[a,b,c]`. -/
theorem q_reverse_involution_witness :
    WF (ringOf [txt "a", txt "b", txt "c"]) 0 [1, 2, 3] ∧
    ∃ h1, q_reverse 4 (ringOf [txt "a", txt "b", txt "c"]) (some 0) = .ok h1 ∧
      q_reverse 4 h1 (some 0) = .ok (ringOf [txt "a", txt "b", txt "c"]) ∧
      ([1, 2, 3].length ≤ 1 → h1 = ringOf [txt "a", txt "b", txt "c"]) :=
  ⟨by decide,
    q_reverse_involution (ringOf [txt "a", txt "b", txt "c"]) 0 [1, 2, 3] 4 (by decide)
      (by decide)⟩

theorem swapPairs_map (v : Nat → List Nat) :
    ∀ (l : List Nat), (swapPairs l).map v = swapPairs (l.map v)
  | [] => rfl
  | [_] => rfl
  | a :: b :: rest => by
    have ih := swapPairs_map v rest
    simp [swapPairs, ih]

/-- C13: on a well-formed queue `q_swap` applied twice returns both times and
the forward traversal is again the original one (for every length, even
lengths included), texts unchanged; applied once to a queue of odd length it
leaves the last element in last position. -/
theorem q_swap_twice (h : Heap) (hd : Nat) (ns : List Nat) (fuel : Nat)
    (hwf : WF h hd ns) (hf : ns.length < fuel) :
    ∃ h1 h2, q_swap fuel h (some hd) = .ok h1 ∧ q_swap fuel h1 (some hd) = .ok h2 ∧
      (ns.length % 2 = 0 → forward fuel h2 hd = .ok ns ∧ texts h2 ns = texts h ns) ∧
      (ns.length % 2 = 1 → ∃ l1, forward fuel h1 hd = .ok l1 ∧ l1.getLast? = ns.getLast? ∧
        texts h1 l1 = swapPairs (texts h ns)) := by
  obtain ⟨hnd, hfwd, _⟩ := hwf
  have hnot : hd ∉ ns := (List.nodup_cons.mp hnd).1
  obtain ⟨x, hx⟩ := chain_start_some hfwd
  obtain ⟨h1, hrun1, hch1, hval1⟩ := swap_loop_spec hd ns [] hd (h.next hd) (some hd) h fuel
    (by simpa using hnd) hnot ⟨rfl, rfl⟩ ⟨x, hx⟩ hfwd (by omega)
  have hperm := swapPairs_perm ns
  have hch1' : Chain h1.next (h1.next hd) (swapPairs ns) (some hd) := hch1.2
  have hnot1 : hd ∉ swapPairs ns := fun hm => hnot (hperm.subset hm)
  have hnd1 : ([] ++ hd :: swapPairs ns).Nodup := by
    have := List.nodup_cons.mp hnd
    exact List.nodup_cons.mpr ⟨hnot1, hperm.nodup_iff.mpr this.2⟩
  obtain ⟨y, hy⟩ := chain_start_some hch1'
  obtain ⟨h2, hrun2, hch2, hval2⟩ := swap_loop_spec hd (swapPairs ns) [] hd (h1.next hd)
    (some hd) h1 fuel hnd1 hnot1 ⟨rfl, rfl⟩ ⟨y, hy⟩ hch1' (by rw [hperm.length_eq]; omega)
  rw [swapPairs_swapPairs] at hch2
  refine ⟨h1, h2, by simp [q_swap, hrun1], by simp [q_swap, hrun2], ?_, ?_⟩
  · intro _
    exact ⟨forward_of_chain h2 hd ns fuel hch2.2 hnot hf, by simp [texts, hval2, hval1]⟩
  · intro hodd
    refine ⟨swapPairs ns, forward_of_chain h1 hd _ fuel hch1' hnot1
      (by rw [hperm.length_eq]; exact hf), swapPairs_getLast_odd ns hodd, ?_⟩
    simp only [texts, hval1]
    exact swapPairs_map h.value ns

/-- C13 at the queues `[1,2,3,4]` (twice) and `[1,2,3]` (once). -/
theorem q_swap_twice_witness :
    WF (ringOf [[1], [2], [3], [4]]) 0 [1, 2, 3, 4] ∧
    (∃ h1 h2, q_swap 5 (ringOf [[1], [2], [3], [4]]) (some 0) = .ok h1 ∧
      q_swap 5 h1 (some 0) = .ok h2 ∧
      ([1, 2, 3, 4].length % 2 = 0 → forward 5 h2 0 = .ok [1, 2, 3, 4] ∧
        texts h2 [1, 2, 3, 4] = texts (ringOf [[1], [2], [3], [4]]) [1, 2, 3, 4]) ∧
      ([1, 2, 3, 4].length % 2 = 1 → ∃ l1, forward 5 h1 0 = .ok l1 ∧
        l1.getLast? = [1, 2, 3, 4].getLast? ∧
        texts h1 l1 = swapPairs (texts (ringOf [[1], [2], [3], [4]]) [1, 2, 3, 4]))) ∧
    observe 4 0 ((q_swap 4 (ringOf [[1], [2], [3]]) (some 0)).map (fun h => (h, true))) =
      .ok (true, [2, 1, 3], [3], some 2, some 3) :=
  ⟨by decide,
    q_swap_twice (ringOf [[1], [2], [3], [4]]) 0 [1, 2, 3, 4] 5 (by decide) (by decide),
    by decide⟩

/-! ## Round trips, FIFO order and size -/

/-- C14: on a well-formed queue with forward contents `ns`, a successful
`q_insert_head` of the text `s` (new element at the fresh address `e`) makes
the forward contents `e :: ns` with texts `s :: texts`, and `q_remove_head`
right after returns `e`, whose text is `s`, and leaves the forward contents
`ns` with the original texts, the queue well formed. -/
theorem q_insert_remove_head (h : Heap) (hd : Nat) (ns : List Nat) (e : Nat) (s : List Nat)
    (fuel : Nat) (hwf : WF h hd ns) (he : e ∉ hd :: ns) (hf : ns.length + 1 < fuel) :
    ∃ h1 h2, q_insert_head h (some hd) s ⟨some e, true⟩ = .ok (h1, true) ∧
      forward fuel h1 hd = .ok (e :: ns) ∧ texts h1 (e :: ns) = s :: texts h ns ∧
      q_remove_head h1 (some hd) none 0 = .ok (some e, h2, none) ∧ h2.value e = s ∧
      forward fuel h2 hd = .ok ns ∧ texts h2 ns = texts h ns ∧ WF h2 hd ns := by
  obtain ⟨h1, hins, hwf1, hv, hvo, _⟩ := q_insert_head_wf hwf he s
  obtain ⟨h2, hrem, hwf2, hval2, _⟩ := q_remove_head_wf hwf1 none 0
  have htx : texts h1 ns = texts h ns := by
    simp only [texts]
    refine List.map_congr_left ?_
    intro x hx
    exact hvo x (fun c => he (c ▸ List.mem_cons_of_mem _ hx))
  refine ⟨h1, h2, hins, (wf_traversals hwf1 fuel (by simpa using hf)).1, ?_, hrem, ?_,
    (wf_traversals hwf2 fuel (by omega)).1, ?_, hwf2⟩
  · simp only [texts, List.map_cons, hv]
    exact congrArg _ htx
  · rw [hval2, hv]
  · simp only [texts, hval2]
    exact htx

/-- C14 starting from the empty queue, with the text `"x"`. -/
theorem q_insert_remove_head_witness :
    WF (ringOf []) 0 [] ∧ 1 ∉ 0 :: ([] : List Nat) ∧
    ∃ h1 h2, q_insert_head (ringOf []) (some 0) (txt "x") ⟨some 1, true⟩ = .ok (h1, true) ∧
      forward 2 h1 0 = .ok (1 :: []) ∧ texts h1 (1 :: []) = txt "x" :: texts (ringOf []) [] ∧
      q_remove_head h1 (some 0) none 0 = .ok (some 1, h2, none) ∧ h2.value 1 = txt "x" ∧
      forward 2 h2 0 = .ok [] ∧ texts h2 [] = texts (ringOf []) [] ∧ WF h2 0 [] :=
  ⟨by decide, by decide,
    q_insert_remove_head (ringOf []) 0 [] 1 (txt "x") 2 (by decide) (by decide) (by decide)⟩

theorem foldl_place_tails (items : List (Nat × List Nat)) :
    ∀ (ns : List Nat), (items.map (fun p => Ins.tail p.1 p.2)).foldl Ins.place ns =
      ns ++ items.map Prod.fst := by
  induction items with
  | nil => intro ns; simp
  | cons p items ih =>
    intro ns
    simp [Ins.place, ih]

/-- C15: on a well-formed queue a successful `q_insert_tail` of `s` makes the
forward contents `ns ++ [e]`, and `q_remove_tail` right after returns `e` with
text `s` and leaves the forward contents `ns` with the original texts. And for
every list of texts inserted at the tail of a newly created queue (element
`i` at the fresh address `items[i].1`), as many calls of `q_remove_head` return
the texts in insertion order and leave the queue empty. -/
theorem q_insert_tail_fifo (h : Heap) (hd : Nat) (ns : List Nat) (e : Nat) (s : List Nat)
    (fuel : Nat) (hwf : WF h hd ns) (he : e ∉ hd :: ns) (hf : ns.length + 1 < fuel) :
    (∃ h1 h2, q_insert_tail h (some hd) s ⟨some e, true⟩ = .ok (h1, true) ∧
      forward fuel h1 hd = .ok (ns ++ [e]) ∧ texts h1 (ns ++ [e]) = texts h ns ++ [s] ∧
      q_remove_tail h1 (some hd) none 0 = .ok (some e, h2, none) ∧ h2.value e = s ∧
      forward fuel h2 hd = .ok ns ∧ texts h2 ns = texts h ns) ∧
    (∀ (g : Heap) (a : Nat) (items : List (Nat × List Nat)),
      (a :: items.map Prod.fst).Nodup →
      ∃ h1 h2, insert_seq a (items.map (fun p => Ins.tail p.1 p.2)) (q_new g (some a)).1 =
          .ok (h1, true) ∧
        forward (items.length + 1) h1 a = .ok (items.map Prod.fst) ∧
        remove_heads a items.length h1 = .ok (items.map Prod.snd, h2) ∧
        forward 1 h2 a = .ok [] ∧ h2.next a = some a ∧ h2.prev a = some a) := by
  constructor
  · obtain ⟨h1, hins, hwf1, hv, hvo, _⟩ := q_insert_tail_wf hwf he s
    obtain ⟨h2, hrem, hwf2, hval2, _⟩ := q_remove_tail_wf hwf1 none 0
    have htx : texts h1 ns = texts h ns := by
      simp only [texts]
      refine List.map_congr_left ?_
      intro x hx
      exact hvo x (fun c => he (c ▸ List.mem_cons_of_mem _ hx))
    refine ⟨h1, h2, hins, (wf_traversals hwf1 fuel (by simpa using hf)).1, ?_, hrem, ?_,
      (wf_traversals hwf2 fuel (by omega)).1, ?_⟩
    · simp only [texts, List.map_append, List.map_cons, List.map_nil, hv]
      exact congrArg (· ++ [s]) htx
    · rw [hval2, hv]
    · simp only [texts, hval2]
      exact htx
  · intro g a items hnd
    have hnd' := List.nodup_cons.mp hnd
    set ops := items.map (fun p => Ins.tail p.1 p.2) with hops
    have haddr : ops.map Ins.addr = items.map Prod.fst := by
      simp [hops, Ins.addr, Function.comp_def]
    have hfresh : ∀ op ∈ ops, op.addr ∉ a :: ([] : List Nat) := by
      intro op hop hm
      have h1 : op.addr ∈ ops.map Ins.addr := List.mem_map_of_mem _ hop
      rw [haddr] at h1
      have : op.addr = a := by simpa using hm
      exact hnd'.1 (this ▸ h1)
    obtain ⟨h1, hrun, hwf1, hv, _, _⟩ := insert_seq_spec a ops (q_new g (some a)).1 []
      (q_new_wf g a).2 (by rw [haddr]; exact hnd'.2) hfresh
    rw [hops, foldl_place_tails, List.nil_append] at hwf1
    obtain ⟨h2, hrem, hwf2⟩ := remove_heads_spec a (items.map Prod.fst) h1 hwf1
    have htexts : texts h1 (items.map Prod.fst) = items.map Prod.snd := by
      simp only [texts, List.map_map]
      refine List.map_congr_left ?_
      intro p hp
      have := hv (Ins.tail p.1 p.2) (by rw [hops]; exact List.mem_map_of_mem _ hp)
      simpa [Ins.addr, Ins.text] using this
    rw [List.length_map, htexts] at hrem
    obtain ⟨_, hf2, hb2⟩ := (wf_iff_chains h2 a []).mp hwf2
    exact ⟨h1, h2, hrun, (wf_traversals hwf1 _ (by simp)).1, hrem,
      (wf_traversals hwf2 1 (by simp)).1, hf2, hb2⟩

/-- C15 at the empty queue; the second part is used with the texts `"a"`, `"b"`. -/
theorem q_insert_tail_fifo_witness :
    WF (ringOf []) 0 [] ∧
    (∃ h1 h2, q_insert_tail (ringOf []) (some 0) (txt "x") ⟨some 1, true⟩ = .ok (h1, true) ∧
      forward 2 h1 0 = .ok ([] ++ [1]) ∧
      texts h1 ([] ++ [1]) = texts (ringOf []) [] ++ [txt "x"] ∧
      q_remove_tail h1 (some 0) none 0 = .ok (some 1, h2, none) ∧ h2.value 1 = txt "x" ∧
      forward 2 h2 0 = .ok [] ∧ texts h2 [] = texts (ringOf []) []) ∧
    ∃ h1 h2, insert_seq 0 ([(1, txt "a"), (2, txt "b")].map (fun p => Ins.tail p.1 p.2))
          (q_new emptyHeap (some 0)).1 = .ok (h1, true) ∧
        forward ([(1, txt "a"), (2, txt "b")].length + 1) h1 0 =
          .ok ([(1, txt "a"), (2, txt "b")].map Prod.fst) ∧
        remove_heads 0 [(1, txt "a"), (2, txt "b")].length h1 =
          .ok ([(1, txt "a"), (2, txt "b")].map Prod.snd, h2) ∧
        forward 1 h2 0 = .ok [] ∧ h2.next 0 = some 0 ∧ h2.prev 0 = some 0 :=
  ⟨by decide,
    (q_insert_tail_fifo (ringOf []) 0 [] 1 (txt "x") 2 (by decide) (by decide) (by decide)).1,
    (q_insert_tail_fifo (ringOf []) 0 [] 1 (txt "x") 2 (by decide) (by decide) (by decide)).2
      emptyHeap 0 [(1, txt "a"), (2, txt "b")] (by decide)⟩

/-- The size after `n` insertions at the tail of a new queue (elements at the
addresses `1 .. n`) is `n` counted in an `int`. -/
theorem q_size_after_tails (n : Nat) :
    ∃ h1, insert_seq 0 ((List.range' 1 n).map (fun a => Ins.tail a []))
        (q_new emptyHeap (some 0)).1 = .ok (h1, true) ∧
      q_size (n + 1) h1 (some 0) = .ok (int_incr^[n] 0) := by
  set ops := (List.range' 1 n).map (fun a => Ins.tail a []) with hops
  have haddr : ops.map Ins.addr = List.range' 1 n := by
    simp [hops, Ins.addr, Function.comp_def]
  have hfresh : ∀ op ∈ ops, op.addr ∉ 0 :: ([] : List Nat) := by
    intro op hop hm
    have h1 : op.addr ∈ ops.map Ins.addr := List.mem_map_of_mem _ hop
    rw [haddr] at h1
    have h0 : op.addr = 0 := by simpa using hm
    rw [h0] at h1
    have := (List.mem_range'.mp h1)
    omega
  obtain ⟨h1, hrun, hwf1, _, _, hlen⟩ := insert_seq_spec 0 ops (q_new emptyHeap (some 0)).1 []
    (q_new_wf emptyHeap 0).2 (by rw [haddr]; exact List.nodup_range' 1 n) hfresh
  have hl : (ops.foldl Ins.place []).length = n := by
    rw [hlen, hops]; simp
  have := q_size_run hwf1 (n + 1) (by omega)
  rw [hl] at this
  exact ⟨h1, hrun, this⟩

/-- C16, as the claim states it, fails: after `2 ^ 31` successful insertions
into a new queue the `int` counter of `q_size` has wrapped around and the
result is not `2 ^ 31`. -/
theorem q_size_wraps_at_int_max :
    ∃ h1, insert_seq 0 ((List.range' 1 (2 ^ 31)).map (fun a => Ins.tail a []))
        (q_new emptyHeap (some 0)).1 = .ok (h1, true) ∧
      q_size (2 ^ 31 + 1) h1 (some 0) = .ok (-2147483648) ∧
      q_size (2 ^ 31 + 1) h1 (some 0) ≠ .ok ((2 ^ 31 : Nat) : Int) := by
  obtain ⟨h1, hrun, hsize⟩ := q_size_after_tails (2 ^ 31)
  have hv : int_incr^[2 ^ 31] 0 = -2147483648 := by
    rw [int_incr_iterate]
    norm_num
  rw [hv] at hsize
  refine ⟨h1, hrun, hsize, ?_⟩
  rw [hsize]
  intro c
  have := Except.ok.inj c
  norm_num at this

/-- C16 amended: for every sequence of `N < 2 ^ 31` successful insertions (any
mix of head and tail, any texts, fresh pairwise distinct addresses) applied to
a newly created queue, `q_size` returns `N`; it returns `0` for a null queue
and for every well-formed empty queue. -/
theorem q_size_counts (g : Heap) (a : Nat) (ops : List Ins) (fuel : Nat)
    (hnd : (a :: ops.map Ins.addr).Nodup) (hN : ops.length < 2 ^ (INT_WIDTH - 1))
    (hf : ops.length < fuel) :
    (∃ h1, insert_seq a ops (q_new g (some a)).1 = .ok (h1, true) ∧
      q_size fuel h1 (some a) = .ok (ops.length : Int)) ∧
    q_size fuel g none = .ok 0 ∧
    (∀ (h : Heap) (hd : Nat), WF h hd [] → q_size (fuel + 1) h (some hd) = .ok 0) := by
  have hnd' := List.nodup_cons.mp hnd
  have hfresh : ∀ op ∈ ops, op.addr ∉ a :: ([] : List Nat) := by
    intro op hop hm
    have h0 : op.addr = a := by simpa using hm
    exact hnd'.1 (h0 ▸ List.mem_map_of_mem _ hop)
  obtain ⟨h1, hrun, hwf1, _, _, hlen⟩ := insert_seq_spec a ops (q_new g (some a)).1 []
    (q_new_wf g a).2 hnd'.2 hfresh
  have hl : (ops.foldl Ins.place []).length = ops.length := by
    rw [hlen]; simp
  have hsz := q_size_run hwf1 fuel (by omega)
  rw [hl, int_incr_iterate_small _ (by simpa [INT_WIDTH] using hN)] at hsz
  refine ⟨⟨h1, hrun, hsz⟩, rfl, ?_⟩
  intro h hd hwf
  exact q_size_run hwf (fuel + 1) (by simp)

/-- C16 amended, at three mixed insertions. -/
theorem q_size_counts_witness :
    (0 :: [Ins.head 1 (txt "a"), Ins.tail 2 (txt "b"), Ins.head 3 (txt "c")].map
      Ins.addr).Nodup ∧
    (∃ h1, insert_seq 0 [Ins.head 1 (txt "a"), Ins.tail 2 (txt "b"), Ins.head 3 (txt "c")]
        (q_new emptyHeap (some 0)).1 = .ok (h1, true) ∧
      q_size 4 h1 (some 0) =
        .ok ([Ins.head 1 (txt "a"), Ins.tail 2 (txt "b"), Ins.head 3 (txt "c")].length : Int)) ∧
    q_size 4 emptyHeap none = .ok 0 ∧
    (∀ (h : Heap) (hd : Nat), WF h hd [] → q_size (4 + 1) h (some hd) = .ok 0) :=
  ⟨by decide,
    q_size_counts emptyHeap 0 [Ins.head 1 (txt "a"), Ins.tail 2 (txt "b"), Ins.head 3 (txt "c")]
      4 (by decide) (by decide) (by decide)⟩

/-! ## Ring invariant, null handles, failed insertions, termination -/

/-- A well-formed queue is fully connected. -/
theorem connected_of_wf {h : Heap} {hd : Nat} {ns : List Nat} (hwf : WF h hd ns) (fuel : Nat)
    (hf : ns.length < fuel) : Connected fuel h hd ns :=
  ⟨hwf, (wf_traversals hwf fuel hf).1, (wf_traversals hwf fuel hf).2⟩

/-- C17: starting from a well-formed queue with element nodes `ns`, after a
successful `q_insert_head` or `q_insert_tail` (fresh address `e`), after
`q_remove_head` or `q_remove_tail`, after `q_delete_mid` and after
`q_reverse` the ring is again well formed (every node, the sentinel
included, has `n.next.prev == n` and `n.prev.next == n`) and fully connected:
the forward traversal visits the expected nodes and the backward traversal
visits the same nodes in the opposite order. -/
theorem ring_invariant_preserved (h : Heap) (hd : Nat) (ns : List Nat) (fuel : Nat)
    (hwf : WF h hd ns) (hf : ns.length + 1 < fuel) :
    (∀ e s, e ∉ hd :: ns → ∃ h1, q_insert_head h (some hd) s ⟨some e, true⟩ = .ok (h1, true) ∧
      Connected fuel h1 hd (e :: ns)) ∧
    (∀ e s, e ∉ hd :: ns → ∃ h1, q_insert_tail h (some hd) s ⟨some e, true⟩ = .ok (h1, true) ∧
      Connected fuel h1 hd (ns ++ [e])) ∧
    (∀ sp cap, ∃ r h1 sp1, q_remove_head h (some hd) sp cap = .ok (r, h1, sp1) ∧
      r = ns.head? ∧ Connected fuel h1 hd ns.tail) ∧
    (∀ sp cap, ∃ r h1 sp1, q_remove_tail h (some hd) sp cap = .ok (r, h1, sp1) ∧
      r = ns.getLast? ∧ Connected fuel h1 hd ns.dropLast) ∧
    (∃ h1 b, q_delete_mid fuel h (some hd) = .ok (h1, b) ∧
      Connected fuel h1 hd (ns.eraseIdx (ns.length / 2))) ∧
    (∃ h1, q_reverse fuel h (some hd) = .ok h1 ∧ Connected fuel h1 hd ns.reverse) := by
  refine ⟨?_, ?_, ?_, ?_, ?_, ?_⟩
  · intro e s he
    obtain ⟨h1, hrun, hwf1, _⟩ := q_insert_head_wf hwf he s
    exact ⟨h1, hrun, connected_of_wf hwf1 fuel (by simpa using hf)⟩
  · intro e s he
    obtain ⟨h1, hrun, hwf1, _⟩ := q_insert_tail_wf hwf he s
    exact ⟨h1, hrun, connected_of_wf hwf1 fuel (by simpa using hf)⟩
  · intro sp cap
    cases ns with
    | nil =>
      have hn : h.next hd = some hd := hwf.2.1
      exact ⟨none, h, sp, by simp [q_remove_head, hn], rfl,
        connected_of_wf hwf fuel (by simp only [List.length_nil] at hf ⊢; omega)⟩
    | cons a l =>
      obtain ⟨h1, hrun, hwf1, _⟩ := q_remove_head_wf hwf sp cap
      exact ⟨some a, h1, _, hrun, rfl, connected_of_wf hwf1 fuel (by
        simp only [List.length_cons] at hf; omega)⟩
  · intro sp cap
    cases ns with
    | nil =>
      have hn : h.next hd = some hd := hwf.2.1
      exact ⟨none, h, sp, by simp [q_remove_tail, hn], rfl,
        connected_of_wf hwf fuel (by simp only [List.length_nil] at hf ⊢; omega)⟩
    | cons a l =>
      have hne : a :: l ≠ [] := List.cons_ne_nil _ _
      have hsplit : a :: l = (a :: l).dropLast ++ [(a :: l).getLast hne] :=
        (List.dropLast_append_getLast hne).symm
      have hwf' : WF h hd ((a :: l).dropLast ++ [(a :: l).getLast hne]) := by
        rw [← hsplit]; exact hwf
      obtain ⟨h1, hrun, hwf1, _⟩ := q_remove_tail_wf hwf' sp cap
      refine ⟨some ((a :: l).getLast hne), h1, _, hrun,
        (List.getLast?_eq_getLast _ hne).symm, connected_of_wf hwf1 fuel ?_⟩
      have := List.length_dropLast (a :: l)
      simp only [List.length_cons] at hf this
      omega
  · obtain ⟨h1, hrun, hwf1, _⟩ := q_delete_mid_wf hwf fuel (by omega)
    refine ⟨h1, _, hrun, connected_of_wf hwf1 fuel ?_⟩
    have := List.length_eraseIdx_le ns (ns.length / 2)
    omega
  · obtain ⟨h1, hrun, hwf1, _⟩ := q_reverse_wf hwf fuel (by omega)
    exact ⟨h1, hrun, connected_of_wf hwf1 fuel (by simp; omega)⟩

/-- C17 at the queue `[a,b,c]`. -/
theorem ring_invariant_preserved_witness :
    WF (ringOf [txt "a", txt "b", txt "c"]) 0 [1, 2, 3] ∧
    (∃ h1, q_insert_head (ringOf [txt "a", txt "b", txt "c"]) (some 0) (txt "d")
        ⟨some 4, true⟩ = .ok (h1, true) ∧ Connected 5 h1 0 (4 :: [1, 2, 3])) ∧
    (∃ h1, q_insert_tail (ringOf [txt "a", txt "b", txt "c"]) (some 0) (txt "d")
        ⟨some 4, true⟩ = .ok (h1, true) ∧ Connected 5 h1 0 ([1, 2, 3] ++ [4])) ∧
    (∃ r h1 sp1, q_remove_head (ringOf [txt "a", txt "b", txt "c"]) (some 0) none 0 =
        .ok (r, h1, sp1) ∧ r = [1, 2, 3].head? ∧ Connected 5 h1 0 [1, 2, 3].tail) ∧
    (∃ r h1 sp1, q_remove_tail (ringOf [txt "a", txt "b", txt "c"]) (some 0) none 0 =
        .ok (r, h1, sp1) ∧ r = [1, 2, 3].getLast? ∧ Connected 5 h1 0 [1, 2, 3].dropLast) ∧
    (∃ h1 b, q_delete_mid 5 (ringOf [txt "a", txt "b", txt "c"]) (some 0) = .ok (h1, b) ∧
      Connected 5 h1 0 ([1, 2, 3].eraseIdx ([1, 2, 3].length / 2))) ∧
    (∃ h1, q_reverse 5 (ringOf [txt "a", txt "b", txt "c"]) (some 0) = .ok h1 ∧
      Connected 5 h1 0 [1, 2, 3].reverse) :=
  have key := ring_invariant_preserved (ringOf [txt "a", txt "b", txt "c"]) 0 [1, 2, 3] 5
    (by decide) (by decide)
  ⟨by decide, key.1 4 (txt "d") (by decide), key.2.1 4 (txt "d") (by decide),
    key.2.2.1 none 0, key.2.2.2.1 none 0, key.2.2.2.2.1, key.2.2.2.2.2⟩

/-- C18: with a null queue handle `q_insert_head`, `q_insert_tail`,
`q_delete_mid` and `q_delete_dup` return false, `q_remove_head` and
`q_remove_tail` return `NULL`, `q_size` returns `0`, and `q_free`,
`q_reverse` and `q_sort` return, all without touching the heap; but `q_swap`
has no null test and dereferences the handle. -/
theorem null_handle_results (h : Heap) (s : List Nat) (m : Alloc) (sp : Option Buf)
    (cap fuel : Nat) :
    q_insert_head h none s m = .ok (h, false) ∧ q_insert_tail h none s m = .ok (h, false) ∧
    q_delete_mid fuel h none = .ok (h, false) ∧ q_delete_dup fuel h none = .ok (h, false) ∧
    q_remove_head h none sp cap = .ok (none, h, sp) ∧
    q_remove_tail h none sp cap = .ok (none, h, sp) ∧
    q_size fuel h none = .ok 0 ∧ q_free fuel h none = .ok h ∧
    q_reverse fuel h none = .ok h ∧ q_sort fuel h none = .ok h ∧
    q_swap fuel h none = .error .nullDeref :=
  ⟨rfl, rfl, rfl, rfl, rfl, rfl, rfl, rfl, rfl, rfl, rfl⟩

/-- C19: `q_insert_head` and `q_insert_tail` return false with the heap
unchanged when the queue is null, when the element cannot be allocated and
when the text buffer cannot be allocated; on a well-formed queue, whenever
they return false the heap is the one before the call, and whenever they
return true the new element is linked (first, respectively last, in the
forward traversal) and carries the text. -/
theorem q_insert_atomic (h : Heap) (hd : Nat) (ns : List Nat) (s : List Nat) (m : Alloc)
    (fuel : Nat) (hwf : WF h hd ns) (hfresh : ∀ e, m.elem = some e → e ∉ hd :: ns)
    (hf : ns.length + 1 < fuel) :
    q_insert_head h none s m = .ok (h, false) ∧ q_insert_tail h none s m = .ok (h, false) ∧
    ((m.elem = none ∨ m.buf = false) →
      q_insert_head h (some hd) s m = .ok (h, false) ∧
      q_insert_tail h (some hd) s m = .ok (h, false)) ∧
    (∃ h1 b, q_insert_head h (some hd) s m = .ok (h1, b) ∧ (b = false → h1 = h) ∧
      (b = true → ∃ e, m.elem = some e ∧ forward fuel h1 hd = .ok (e :: ns) ∧
        h1.value e = s ∧ texts h1 ns = texts h ns)) ∧
    (∃ h1 b, q_insert_tail h (some hd) s m = .ok (h1, b) ∧ (b = false → h1 = h) ∧
      (b = true → ∃ e, m.elem = some e ∧ forward fuel h1 hd = .ok (ns ++ [e]) ∧
        h1.value e = s ∧ texts h1 ns = texts h ns)) := by
  obtain ⟨elem, buf⟩ := m
  refine ⟨rfl, rfl, ?_, ?_, ?_⟩
  · rintro (c | c)
    · simp only at c
      subst c
      exact ⟨rfl, rfl⟩
    · simp only at c
      subst c
      cases elem <;> exact ⟨rfl, rfl⟩
  · cases elem with
    | none => exact ⟨h, false, rfl, fun _ => rfl, (fun c => by cases c)⟩
    | some e =>
      cases buf with
      | false => exact ⟨h, false, rfl, fun _ => rfl, (fun c => by cases c)⟩
      | true =>
        have he : e ∉ hd :: ns := hfresh e rfl
        obtain ⟨h1, hrun, hwf1, hv, hvo, _⟩ := q_insert_head_wf hwf he s
        refine ⟨h1, true, hrun, (fun c => by cases c), fun _ => ⟨e, rfl,
          (wf_traversals hwf1 fuel (by simpa using hf)).1, hv, ?_⟩⟩
        simp only [texts]
        refine List.map_congr_left ?_
        intro x hx
        exact hvo x (fun c => he (c ▸ List.mem_cons_of_mem _ hx))
  · cases elem with
    | none => exact ⟨h, false, rfl, fun _ => rfl, (fun c => by cases c)⟩
    | some e =>
      cases buf with
      | false => exact ⟨h, false, rfl, fun _ => rfl, (fun c => by cases c)⟩
      | true =>
        have he : e ∉ hd :: ns := hfresh e rfl
        obtain ⟨h1, hrun, hwf1, hv, hvo, _⟩ := q_insert_tail_wf hwf he s
        refine ⟨h1, true, hrun, (fun c => by cases c), fun _ => ⟨e, rfl,
          (wf_traversals hwf1 fuel (by simpa using hf)).1, hv, ?_⟩⟩
        simp only [texts]
        refine List.map_congr_left ?_
        intro x hx
        exact hvo x (fun c => he (c ▸ List.mem_cons_of_mem _ hx))

/-- C19 at the queue `[a,b]` when the text buffer cannot be allocated. -/
theorem q_insert_atomic_witness :
    WF (ringOf [txt "a", txt "b"]) 0 [1, 2] ∧
    (∀ e, (Alloc.mk (some 3) false).elem = some e → e ∉ 0 :: [1, 2]) ∧
    q_insert_head (ringOf [txt "a", txt "b"]) (some 0) (txt "c") ⟨some 3, false⟩ =
      .ok (ringOf [txt "a", txt "b"], false) ∧
    q_insert_tail (ringOf [txt "a", txt "b"]) (some 0) (txt "c") ⟨some 3, false⟩ =
      .ok (ringOf [txt "a", txt "b"], false) :=
  ⟨by decide, fun e c => by cases c; decide,
    ((q_insert_atomic (ringOf [txt "a", txt "b"]) 0 [1, 2] (txt "c") ⟨some 3, false⟩ 4
      (by decide) (fun e c => by cases c; decide) (by decide)).2.2.1 (Or.inr rfl)).1,
    ((q_insert_atomic (ringOf [txt "a", txt "b"]) 0 [1, 2] (txt "c") ⟨some 3, false⟩ 4
      (by decide) (fun e c => by cases c; decide) (by decide)).2.2.1 (Or.inr rfl)).2⟩

/-- C20: on every `NULL`-terminated chain of `n ≥ 2` nodes the split loop of
`merge_sort` stops on the node at index `n / 2`, so the cut leaves the first
half with `n / 2 + 1` nodes (for `n = 2` the whole chain, the second half
being empty), and `merge_sort` does not return for any amount of fuel. -/
theorem merge_sort_split_not_smaller (h : Heap) (p : Ptr) (ns : List Nat) (fuel : Nat)
    (hc : Chain h.next p ns none) (hnd : ns.Nodup) (hlen : 2 ≤ ns.length)
    (hf : ns.length < 2 * fuel) :
    (∃ m, split_loop h fuel p p = .ok (some m) ∧ ns[ns.length / 2]? = some m ∧
      Chain (h.setNext m none).next p (ns.take (ns.length / 2 + 1)) none ∧
      (ns.take (ns.length / 2 + 1)).length = ns.length / 2 + 1 ∧
      (ns.length = 2 → ns.take (ns.length / 2 + 1) = ns ∧ h.next m = none)) ∧
    (∀ fuel1, merge_sort fuel1 h (.localVar p) = .error .outOfFuel) := by
  refine ⟨?_, fun fuel1 => merge_sort_diverges fuel1 h (.localVar p) ns hc hnd hlen
    (fun a c => by cases c)⟩
  have hsp := split_loop_spec h ns ns p p fuel hc hc (le_refl _)
  rw [if_pos hf] at hsp
  obtain ⟨r, hr, hcr⟩ := hsp
  set k := ns.length / 2 with hkdef
  have hk : k < ns.length := Nat.div_lt_self (by omega) (by decide)
  have hdrop : ns.drop k = ns[k] :: ns.drop (k + 1) := List.drop_eq_getElem_cons hk
  rw [hdrop] at hcr
  have hrm : r = some ns[k] := hcr.1
  have hsplit : ns = ns.take k ++ ns[k] :: ns.drop (k + 1) := by
    rw [← hdrop, List.take_append_drop]
  have htake : ns.take (k + 1) = ns.take k ++ [ns[k]] := by
    rw [List.take_succ, List.getElem?_eq_getElem hk]
    rfl
  have hnd' : (ns.take k ++ ns[k] :: ns.drop (k + 1)).Nodup := by
    rw [← hsplit]; exact hnd
  have hm0 : ns[k] ∉ ns.take k := fun hm =>
    (List.nodup_append.mp hnd').2.2 hm (List.mem_cons_self _ _)
  have hc0 : Chain h.next p (ns.take k ++ ns[k] :: ns.drop (k + 1)) none := by
    rw [← hsplit]; exact hc
  obtain ⟨r0, hc1, hc2⟩ := chain_append.mp hc0
  have hpre : Chain h.next p (ns.take k ++ [ns[k]]) (h.next ns[k]) :=
    chain_append.mpr ⟨r0, hc1, hc2.1, rfl⟩
  have hpre1 := chain_snoc_set (h.setNext ns[k] none).next hpre (by
    intro n hn
    have : n ≠ ns[k] := fun e => hm0 (e ▸ hn)
    simp [this])
  refine ⟨ns[k], by rw [hr, hrm], List.getElem?_eq_getElem hk, ?_, ?_, ?_⟩
  · rw [htake]
    simpa using hpre1
  · rw [List.length_take]
    omega
  · intro h2
    have hk1 : k = 1 := by rw [hkdef, h2]
    have hfull : ns.take (k + 1) = ns := by
      rw [hk1]
      exact List.take_of_length_le (by omega)
    refine ⟨hfull, ?_⟩
    have hd0 : ns.drop (k + 1) = [] := List.drop_of_length_le (by omega)
    rw [hd0] at hc2
    exact hc2.2

/-- C20 at the chain of the two nodes `1`, `2`: the split stops on node `2`,
the first half is the whole chain. -/
theorem merge_sort_split_not_smaller_witness :
    Chain twoChain.next (some 1) [1, 2] none ∧
    (∃ m, split_loop twoChain 2 (some 1) (some 1) = .ok (some m) ∧
      [1, 2][[1, 2].length / 2]? = some m ∧
      Chain (twoChain.setNext m none).next (some 1) ([1, 2].take ([1, 2].length / 2 + 1)) none ∧
      ([1, 2].take ([1, 2].length / 2 + 1)).length = [1, 2].length / 2 + 1 ∧
      ([1, 2].length = 2 → [1, 2].take ([1, 2].length / 2 + 1) = [1, 2] ∧
        twoChain.next m = none)) ∧
    (∀ fuel1, merge_sort fuel1 twoChain (.localVar (some 1)) = .error .outOfFuel) :=
  ⟨by decide,
    merge_sort_split_not_smaller twoChain (some 1) [1, 2] 2 (by decide) (by decide)
      (by decide) (by decide)⟩

end Queue
